import Mathlib

/-!
Verification of the static-shape array-kernel suite of
`jax/_src/numpy/lax_numpy.py`: insertion-point search (`searchsorted`),
histogram binning, padding, and the scatter-edit operations
(`repeat`, `insert`, `delete`, `fill_diagonal`).

One-dimensional kernels are embedded over `List Int`; machine-integer
behaviour (the unsigned midpoint in the binary search) is made explicit
with `% 2 ^ w`.  The N-dimensional padding engine is embedded further
below over an explicit shape/value array model.
-/

namespace LaxNumpy

/-! ## Insertion-point engine (`searchsorted`)

Source: `_searchsorted_via_scan`, `_searchsorted_via_sort`,
`_searchsorted_via_compare_all` and the `searchsorted` dispatcher
(`lax_numpy.py`).  The `side` argument selects between the
`lax._sort_le_comparator` / `lax._sort_lt_comparator` comparison
operators, which on integers are `≤` and `<`. -/

inductive Side where
  | left
  | right
deriving DecidableEq, Repr

inductive Method where
  | scan
  | scanUnrolled
  | sort
  | compareAll
deriving DecidableEq, Repr

/-- Number of elements of `a` strictly below `v`. -/
def countLt (a : List Int) (v : Int) : Nat :=
  a.countP (fun x => decide (x < v))

/-- Number of elements of `a` at most `v`. -/
def countLe (a : List Int) (v : Int) : Nat :=
  a.countP (fun x => decide (x ≤ v))

/-- The specified result of `searchsorted`: the insertion point of `v` in
`a`, i.e. the count of elements `< v` (side `left`) or `≤ v` (side
`right`). -/
def specCount (side : Side) (a : List Int) (v : Int) : Nat :=
  match side with
  | .left => countLt a v
  | .right => countLe a v

/-- Array indexing as performed by the XLA gather underlying `a[mid]`:
out-of-bounds indices are clamped to the last element. -/
def jaxGet (a : List Int) (i : Nat) : Int :=
  a.getD (min i (a.length - 1)) 0

/-- Width of the unsigned dtype used for the midpoint computation in
`_searchsorted_via_scan`: the index dtype is `int32` when the reference
length fits, `int64` otherwise, and the midpoint is computed in the
corresponding unsigned type. -/
def wordSize (n : Nat) : Nat :=
  if n ≤ 2 ^ 31 - 1 then 32 else 64

/-- The branch condition `op(query, sorted_arr[mid])` of one bisection
step: `side = left` uses `lax._sort_le_comparator`, `side = right` uses
`lax._sort_lt_comparator`. -/
def goLeft (side : Side) (a : List Int) (q : Int) (mid : Nat) : Bool :=
  match side with
  | .left => decide (q ≤ jaxGet a mid)
  | .right => decide (q < jaxGet a mid)

/-- One iteration of `body_fun` in `_searchsorted_via_scan`: the midpoint
is `(low + high) / 2` computed in the unsigned dtype (hence the
`% 2 ^ wordSize`), and the window is narrowed on the comparison. -/
def scanStep (side : Side) (a : List Int) (q : Int) (s : Nat × Nat) : Nat × Nat :=
  let mid := ((s.1 + s.2) % 2 ^ wordSize a.length) / 2
  if goLeft side a q mid then (s.1, mid) else (mid, s.2)

/-- Fuel-driven ceiling base-2 logarithm (kernel-reducible form of
`Nat.clog 2`; the fuel argument only drives structural recursion). -/
def clog2Fuel : Nat → Nat → Nat
  | 0, _ => 0
  | fuel + 1, m => if m ≤ 1 then 0 else clog2Fuel fuel ((m + 1) / 2) + 1

/-- The static trip count `n_levels = ceil(log2(len(sorted_arr) + 1))`. -/
def nLevels (n : Nat) : Nat := clog2Fuel (n + 1) (n + 1)

theorem clog2Fuel_eq_clog (fuel m : Nat) (h : m ≤ fuel) :
    clog2Fuel fuel m = Nat.clog 2 m := by
  induction fuel generalizing m with
  | zero =>
    interval_cases m
    simp [clog2Fuel]
  | succ fuel ih =>
    by_cases h1 : m ≤ 1
    · interval_cases m <;> simp [clog2Fuel]
    · have h2 : 2 ≤ m := by omega
      rw [clog2Fuel, if_neg (by omega), ih _ (by omega),
        Nat.clog_of_two_le (by omega) h2]
      congr 2

/-- Sanity: `nLevels` agrees with the mathematical `ceil(log2(n + 1))`. -/
theorem nLevels_eq_clog (n : Nat) : nLevels n = Nat.clog 2 (n + 1) :=
  clog2Fuel_eq_clog (n + 1) (n + 1) le_rfl

/-- The `scan` method (`_searchsorted_via_scan`) for a single query
element.  The `unrolled` flag only selects the loop-unrolling strategy of
`control_flow.scan` in the source and does not enter the computation. -/
def searchsortedViaScan (unrolled : Bool) (a : List Int) (q : Int) (side : Side) : Nat :=
  ((scanStep side a q)^[nLevels a.length] (0, a.length)).2

/-- The rank array `_rank(x)`: `zeros.at[argsort(x)].set(iota)` with a
stable `argsort`, so the rank of position `j` is the number of strictly
smaller elements plus the number of equal elements at earlier
positions. -/
def rankAt (x : List Int) (j : Nat) : Nat :=
  countLt x (x.getD j 0) + (x.take j).countP (fun y => decide (y = x.getD j 0))

/-- The `sort` method (`_searchsorted_via_sort`): rank the concatenation
of query and reference (order controlled by `side`) and subtract each
query element's rank among the queries alone. -/
def searchsortedViaSort (a q : List Int) (side : Side) : List Nat :=
  match side with
  | .left => (List.range q.length).map (fun k => rankAt (q ++ a) k - rankAt q k)
  | .right => (List.range q.length).map (fun k => rankAt (a ++ q) (a.length + k) - rankAt q k)

/-- The elementwise comparison of `_searchsorted_via_compare_all`:
`lax._sort_lt_comparator` for `left`, `lax._sort_le_comparator` for
`right`, applied as `op(sorted_arr_element, query)`. -/
def compareAllOp (side : Side) (x q : Int) : Bool :=
  match side with
  | .left => decide (x < q)
  | .right => decide (x ≤ q)

/-- The `compare_all` method (`_searchsorted_via_compare_all`) for a
single query element: the full comparison column is summed along the
reference axis. -/
def searchsortedViaCompareAll (a : List Int) (q : Int) (side : Side) : Nat :=
  ((a.map (fun x => compareAllOp side x q)).map (fun b => if b then 1 else 0)).sum

/-- The `searchsorted` dispatcher: an empty reference array yields all
zeros without invoking any method; otherwise the selected method is
vectorized over the query array. -/
def searchsorted (a v : List Int) (side : Side) (method : Method) : List Nat :=
  if a.length = 0 then v.map (fun _ => 0)
  else
    match method with
    | .scan => v.map (fun q => searchsortedViaScan false a q side)
    | .scanUnrolled => v.map (fun q => searchsortedViaScan true a q side)
    | .sort => searchsortedViaSort a v side
    | .compareAll => v.map (fun q => searchsortedViaCompareAll a q side)

/-! ### Correctness of the `scan` method -/

/-- Ceiling division, used to track the shrinking search window. -/
def cdiv (m d : Nat) : Nat := (m + d - 1) / d

theorem cdiv_le_iff {m d x : Nat} (hd : 0 < d) : cdiv m d ≤ x ↔ m ≤ d * x := by
  unfold cdiv
  rw [Nat.div_le_iff_le_mul_add_pred hd]
  omega

theorem cdiv_mul_two {m k : Nat} (hk : 0 < k) : cdiv m (2 * k) = cdiv (cdiv m k) 2 := by
  refine le_antisymm ?_ ?_
  · rw [cdiv_le_iff (by omega)]
    have h1 : cdiv m k ≤ 2 * cdiv (cdiv m k) 2 := (cdiv_le_iff (by omega)).mp le_rfl
    have h2 : m ≤ k * cdiv m k := (cdiv_le_iff hk).mp le_rfl
    calc m ≤ k * cdiv m k := h2
    _ ≤ k * (2 * cdiv (cdiv m k) 2) := Nat.mul_le_mul_left _ h1
    _ = 2 * k * cdiv (cdiv m k) 2 := by ring
  · rw [cdiv_le_iff (by omega), cdiv_le_iff hk]
    have h1 : m ≤ 2 * k * cdiv m (2 * k) := (cdiv_le_iff (by omega)).mp le_rfl
    calc m ≤ 2 * k * cdiv m (2 * k) := h1
    _ = k * (2 * cdiv m (2 * k)) := by ring

/-- On a sorted list, a downward-closed predicate holds at position `j`
iff `j` is below the number of positions satisfying it. -/
theorem sorted_countP_iff (a : List Int) (p : Int → Bool)
    (hmono : ∀ x y : Int, x ≤ y → p y = true → p x = true)
    (hs : a.Sorted (· ≤ ·)) :
    ∀ j, j < a.length → (p (a.getD j 0) = true ↔ j < a.countP p) := by
  induction a with
  | nil => intro j hj; simp at hj
  | cons x t ih =>
    rw [List.sorted_cons] at hs
    intro j hj
    match j with
    | 0 =>
      rw [List.getD_cons_zero, List.countP_cons]
      constructor
      · intro hx; simp [hx]
      · intro hlt
        by_contra hx
        rw [Bool.not_eq_true] at hx
        have ht : t.countP p = 0 := by
          rw [List.countP_eq_zero]
          intro y hy hpy
          have := hmono x y (hs.1 y hy) hpy
          simp [this] at hx
        rw [ht, hx] at hlt
        simp at hlt
    | j + 1 =>
      simp only [List.length_cons, Nat.add_lt_add_iff_right] at hj
      rw [List.getD_cons_succ, List.countP_cons]
      by_cases hx : p x = true
      · rw [ih hs.2 j hj]
        simp [hx]
      · rw [Bool.not_eq_true] at hx
        have ht : t.countP p = 0 := by
          rw [List.countP_eq_zero]
          intro y hy hpy
          have := hmono x y (hs.1 y hy) hpy
          simp [this] at hx
        have hmem : t.getD j 0 ∈ t := by
          rw [List.getD_eq_getElem t 0 hj]
          exact List.getElem_mem hj
        have hm : p (t.getD j 0) = false := by
          rw [← Bool.not_eq_true]
          intro hpy
          have hpos : 0 < t.countP p := List.countP_pos_iff.mpr ⟨_, hmem, hpy⟩
          omega
        rw [ht, hx, hm]
        simp

theorem specCount_le_length (side : Side) (a : List Int) (q : Int) :
    specCount side a q ≤ a.length := by
  cases side <;> exact List.countP_le_length _

/-- For a sorted reference, the bisection branch condition is exactly
`specCount ≤ mid`. -/
theorem goLeft_iff (side : Side) (a : List Int) (q : Int)
    (hs : a.Sorted (· ≤ ·)) (mid : Nat) (hmid : mid < a.length) :
    (goLeft side a q mid = true ↔ specCount side a q ≤ mid) := by
  have hget : jaxGet a mid = a.getD mid 0 := by
    unfold jaxGet
    congr 1
    omega
  cases side with
  | left =>
    have h := sorted_countP_iff a (fun x => decide (x < q))
      (by intro x y hxy hp; simp only [decide_eq_true_eq] at hp ⊢; omega) hs mid hmid
    simp only [goLeft, hget, decide_eq_true_eq, specCount, countLt]
    simp only [decide_eq_true_eq] at h
    omega
  | right =>
    have h := sorted_countP_iff a (fun x => decide (x ≤ q))
      (by intro x y hxy hp; simp only [decide_eq_true_eq] at hp ⊢; omega) hs mid hmid
    simp only [goLeft, hget, decide_eq_true_eq, specCount, countLe]
    simp only [decide_eq_true_eq] at h
    omega

theorem midpoint_eq {n l h : Nat} (hl : l ≤ n) (hh : h ≤ n) (hn : n < 2 ^ 63) :
    (l + h) % 2 ^ wordSize n = l + h := by
  apply Nat.mod_eq_of_lt
  unfold wordSize
  split
  · have : (2 : Nat) ^ 31 - 1 + (2 ^ 31 - 1) < 2 ^ 32 := by norm_num
    omega
  · have : (2 : Nat) ^ 63 + 2 ^ 63 = 2 ^ 64 := by norm_num
    omega

/-- Invariant of the bisection loop after `k` steps: either the upper end
has locked on to the insertion point, or the window still brackets it and
its candidate count has halved `k` times. -/
def ScanInv (side : Side) (a : List Int) (q : Int) (k : Nat) (s : Nat × Nat) : Prop :=
  (s.2 = specCount side a q ∧ s.1 ≤ specCount side a q ∧ s.2 ≤ a.length) ∨
  (s.1 ≤ specCount side a q ∧ specCount side a q ≤ s.2 ∧ s.2 ≤ a.length ∧
    (s.1 < specCount side a q ∨ s.1 = 0) ∧
    s.2 - s.1 + (if s.1 = 0 then 1 else 0) ≤ cdiv (a.length + 1) (2 ^ k))

theorem scanInv_init (side : Side) (a : List Int) (q : Int) :
    ScanInv side a q 0 (0, a.length) := by
  right
  refine ⟨Nat.zero_le _, specCount_le_length side a q, le_rfl, Or.inr rfl, ?_⟩
  simp [cdiv]

theorem scanInv_step (side : Side) (a : List Int) (q : Int)
    (hs : a.Sorted (· ≤ ·)) (hlen : a.length < 2 ^ 63)
    (k : Nat) (s : Nat × Nat) (hinv : ScanInv side a q k s) :
    ScanInv side a q (k + 1) (scanStep side a q s) := by
  obtain ⟨l, h⟩ := s
  simp only [ScanInv] at hinv ⊢
  have hcn : specCount side a q ≤ a.length := specCount_le_length side a q
  have hbounds : l ≤ specCount side a q ∧ h ≤ a.length ∧ l ≤ h := by
    rcases hinv with ⟨h1, h2, h3⟩ | ⟨h1, h2, h3, _, _⟩ <;> omega
  obtain ⟨hlc, hhn, hlh⟩ := hbounds
  have hmod : (l + h) % 2 ^ wordSize a.length = l + h :=
    midpoint_eq (hlc.trans hcn) hhn hlen
  have hstep : scanStep side a q (l, h) =
      if goLeft side a q ((l + h) / 2) then (l, (l + h) / 2) else ((l + h) / 2, h) := by
    unfold scanStep
    rw [hmod]
  rw [hstep]
  have hstep2 : cdiv (a.length + 1) (2 ^ (k + 1)) = cdiv (cdiv (a.length + 1) (2 ^ k)) 2 := by
    rw [pow_succ, mul_comm (2 ^ k) 2, cdiv_mul_two (Nat.pos_pow_of_pos k (by omega))]
  have hcd2 : ∀ m : Nat, cdiv m 2 = (m + 1) / 2 := fun m => rfl
  by_cases hlh2 : l = h
  · -- the window is a single point; both branches leave it unchanged
    have hmidl : (l + h) / 2 = l := by omega
    have hceq : specCount side a q = h := by
      rcases hinv with ⟨h1, _, _⟩ | ⟨_, h2, _, _, _⟩ <;> omega
    split <;> rw [hmidl] <;> left <;> refine ⟨by omega, by omega, by omega⟩
  · have hmlt : (l + h) / 2 < h := by omega
    have hmn : (l + h) / 2 < a.length := by omega
    have hiff := goLeft_iff side a q hs ((l + h) / 2) hmn
    rcases hinv with ⟨hh, _, _⟩ | ⟨_, hch, _, hextra, hsize⟩
    · -- upper end locked on: the branch must move the lower end
      have hnotgo : ¬ goLeft side a q ((l + h) / 2) = true := by
        rw [hiff]
        omega
      rw [if_neg hnotgo]
      left
      refine ⟨hh, by omega, by omega⟩
    · by_cases hgo : goLeft side a q ((l + h) / 2) = true
      · have hcmid : specCount side a q ≤ (l + h) / 2 := hiff.mp hgo
        rw [if_pos hgo]
        right
        refine ⟨hlc, hcmid, by omega, ?_, ?_⟩
        · rcases hextra with he | he
          · exact Or.inl he
          · exact Or.inr he
        · rw [hstep2, hcd2]
          by_cases hl0 : l = 0
          · rw [if_pos hl0] at hsize ⊢
            omega
          · rw [if_neg hl0] at hsize ⊢
            omega
      · have hcmid : (l + h) / 2 < specCount side a q := by
          rw [Bool.not_eq_true] at hgo
          have : ¬ (specCount side a q ≤ (l + h) / 2) := by
            rw [← hiff, hgo]
            simp
          omega
        rw [if_neg hgo]
        by_cases hm0 : (l + h) / 2 = 0
        · -- degenerate window: the insertion point is the upper end
          have hl0 : l = 0 := by omega
          have hh1 : h = 1 := by omega
          left
          refine ⟨by omega, by omega, by omega⟩
        · right
          refine ⟨by omega, hch, by omega, Or.inl hcmid, ?_⟩
          rw [hstep2, hcd2]
          rw [if_neg hm0]
          by_cases hl0 : l = 0
          · rw [if_pos hl0] at hsize
            omega
          · rw [if_neg hl0] at hsize
            omega

theorem scanInv_iterate (side : Side) (a : List Int) (q : Int)
    (hs : a.Sorted (· ≤ ·)) (hlen : a.length < 2 ^ 63) (k : Nat) :
    ScanInv side a q k ((scanStep side a q)^[k] (0, a.length)) := by
  induction k with
  | zero => exact scanInv_init side a q
  | succ k ih =>
    rw [Function.iterate_succ_apply']
    exact scanInv_step side a q hs hlen k _ ih

/-- The `scan` method computes the specified insertion point on any sorted
reference array (of physically realizable length). -/
theorem searchsortedViaScan_correct (u : Bool) (side : Side) (a : List Int) (q : Int)
    (hs : a.Sorted (· ≤ ·)) (hlen : a.length < 2 ^ 63) :
    searchsortedViaScan u a q side = specCount side a q := by
  have hK : a.length + 1 ≤ 2 ^ nLevels a.length := by
    rw [nLevels_eq_clog]
    exact Nat.le_pow_clog (by omega) (a.length + 1)
  have hfin := scanInv_iterate side a q hs hlen (nLevels a.length)
  have hsmall : cdiv (a.length + 1) (2 ^ nLevels a.length) ≤ 1 := by
    rw [cdiv_le_iff (Nat.pos_pow_of_pos _ (by omega))]
    omega
  simp only [ScanInv] at hfin
  unfold searchsortedViaScan
  rcases hfin with ⟨hh, _, _⟩ | ⟨h1, h2, _, hextra, hsize⟩
  · exact hh
  · by_cases hl0 : ((scanStep side a q)^[nLevels a.length] (0, a.length)).1 = 0
    · rw [if_pos hl0] at hsize
      omega
    · rw [if_neg hl0] at hsize
      omega

/-! ### Correctness of the `sort` and `compare_all` methods -/

theorem countLt_add_count_eq (a : List Int) (x : Int) :
    countLt a x + a.countP (fun y => decide (y = x)) = countLe a x := by
  unfold countLt countLe
  induction a with
  | nil => rfl
  | cons y t ih =>
    rw [List.countP_cons, List.countP_cons, List.countP_cons]
    simp only [decide_eq_true_eq]
    split_ifs <;> omega

theorem rankAt_append_left (q a : List Int) (k : Nat) (hk : k < q.length) :
    rankAt (q ++ a) k = rankAt q k + countLt a (q.getD k 0) := by
  unfold rankAt countLt
  rw [List.getD_append _ _ _ _ hk, List.countP_append,
    List.take_append_of_le_length (le_of_lt hk)]
  omega

theorem rankAt_append_right (a q : List Int) (k : Nat) (hk : k < q.length) :
    rankAt (a ++ q) (a.length + k) = rankAt q k + countLe a (q.getD k 0) := by
  unfold rankAt countLt countLe
  have hget : (a ++ q).getD (a.length + k) 0 = q.getD k 0 := by
    rw [List.getD_append_right _ _ _ _ (by omega)]
    congr 1
    omega
  have htake : (a ++ q).take (a.length + k) = a ++ q.take k := by
    rw [List.take_append]
  rw [hget, htake, List.countP_append, List.countP_append]
  have := countLt_add_count_eq a (q.getD k 0)
  unfold countLt countLe at this
  omega

theorem sum_ite_eq_countP (l : List Int) (p : Int → Bool) :
    ((l.map p).map (fun b => if b then 1 else 0)).sum = l.countP p := by
  induction l with
  | nil => rfl
  | cons y t ih =>
    rw [List.map_cons, List.map_cons, List.sum_cons, List.countP_cons, ih]
    by_cases hy : p y = true <;> simp [hy] <;> omega

theorem searchsortedViaCompareAll_correct (a : List Int) (q : Int) (side : Side) :
    searchsortedViaCompareAll a q side = specCount side a q := by
  unfold searchsortedViaCompareAll
  cases side with
  | left => exact sum_ite_eq_countP a _
  | right => exact sum_ite_eq_countP a _

theorem map_getD_range (q : List Int) (g : Int → Nat) :
    (List.range q.length).map (fun k => g (q.getD k 0)) = q.map g := by
  apply List.ext_getElem
  · simp
  · intro i h1 h2
    simp only [List.getElem_map, List.getElem_range]
    congr 1
    exact List.getD_eq_getElem q 0 (by simpa using h2)

theorem searchsortedViaSort_correct (a q : List Int) (side : Side) :
    searchsortedViaSort a q side = q.map (fun x => specCount side a x) := by
  unfold searchsortedViaSort
  cases side with
  | left =>
    rw [← map_getD_range q (fun x => specCount Side.left a x)]
    apply List.map_congr_left
    intro k hk
    rw [List.mem_range] at hk
    rw [rankAt_append_left q a k hk]
    simp [specCount]
  | right =>
    rw [← map_getD_range q (fun x => specCount Side.right a x)]
    apply List.map_congr_left
    intro k hk
    rw [List.mem_range] at hk
    rw [rankAt_append_right a q k hk]
    simp [specCount]

/-- All four dispatch paths of `searchsorted` compute the specified
counts on sorted input. -/
theorem searchsorted_eq_spec (a v : List Int) (side : Side) (method : Method)
    (hs : a.Sorted (· ≤ ·)) (hlen : a.length < 2 ^ 63) :
    searchsorted a v side method = v.map (fun x => specCount side a x) := by
  unfold searchsorted
  by_cases hempty : a.length = 0
  · rw [if_pos hempty]
    have ha : a = [] := List.length_eq_zero.mp hempty
    subst ha
    apply List.map_congr_left
    intro x _
    cases side <;> rfl
  · rw [if_neg hempty]
    cases method with
    | scan =>
      apply List.map_congr_left
      intro x _
      exact searchsortedViaScan_correct false side a x hs hlen
    | scanUnrolled =>
      apply List.map_congr_left
      intro x _
      exact searchsortedViaScan_correct true side a x hs hlen
    | sort => exact searchsortedViaSort_correct a v side
    | compareAll =>
      apply List.map_congr_left
      intro x _
      exact searchsortedViaCompareAll_correct a x side

/-- C1: for every sorted 1-D reference array `r` and query array `q`,
`searchsorted(r, q, side)` (under any method) returns at each position
the number of elements of `r` strictly below the query (side `left`),
respectively at most the query (side `right`).  The length bound reflects
the `int64` index dtype of the source. -/
theorem searchsorted_counts_spec (a v : List Int) (side : Side) (method : Method)
    (hs : a.Sorted (· ≤ ·)) (hlen : a.length < 2 ^ 63) :
    searchsorted a v side method = v.map (fun x => specCount side a x) :=
  searchsorted_eq_spec a v side method hs hlen

theorem searchsorted_counts_spec_witness :
    searchsorted [1, 2, 2, 3, 4, 5, 5] [0, 3, 8, 2] Side.left Method.scan = [0, 3, 7, 1] ∧
    searchsorted [1, 2, 2, 3, 4, 5, 5] [2] Side.right Method.sort = [3] :=
  ⟨(searchsorted_counts_spec [1, 2, 2, 3, 4, 5, 5] [0, 3, 8, 2] Side.left Method.scan
      (by decide) (by decide)).trans (by decide),
   (searchsorted_counts_spec [1, 2, 2, 3, 4, 5, 5] [2] Side.right Method.sort
      (by decide) (by decide)).trans (by decide)⟩

/-- C2: on sorted input all four `searchsorted` methods (`scan`,
`scan_unrolled`, `sort`, `compare_all`) return exactly the same index
array. -/
theorem searchsorted_methods_agree (a v : List Int) (side : Side) (m1 m2 : Method)
    (hs : a.Sorted (· ≤ ·)) (hlen : a.length < 2 ^ 63) :
    searchsorted a v side m1 = searchsorted a v side m2 := by
  rw [searchsorted_eq_spec a v side m1 hs hlen, searchsorted_eq_spec a v side m2 hs hlen]

theorem searchsorted_methods_agree_witness :
    searchsorted [1, 2, 2, 3] [0, 2, 9] Side.left Method.scan
      = searchsorted [1, 2, 2, 3] [0, 2, 9] Side.left Method.scanUnrolled ∧
    searchsorted [1, 2, 2, 3] [0, 2, 9] Side.right Method.scan
      = searchsorted [1, 2, 2, 3] [0, 2, 9] Side.right Method.sort ∧
    searchsorted [1, 2, 2, 3] [0, 2, 9] Side.left Method.sort
      = searchsorted [1, 2, 2, 3] [0, 2, 9] Side.left Method.compareAll :=
  ⟨searchsorted_methods_agree [1, 2, 2, 3] [0, 2, 9] Side.left Method.scan
      Method.scanUnrolled (by decide) (by decide),
   searchsorted_methods_agree [1, 2, 2, 3] [0, 2, 9] Side.right Method.scan
      Method.sort (by decide) (by decide),
   searchsorted_methods_agree [1, 2, 2, 3] [0, 2, 9] Side.left Method.sort
      Method.compareAll (by decide) (by decide)⟩

example : searchsorted [1, 2, 2, 3, 4, 5, 5] [2] Side.left Method.scan = [1] := by decide

/-! ## Binning engine (`histogram`)

Source: `histogram` (`lax_numpy.py`).  Bin edges are taken as an explicit
edge vector (`np.ndim(bins) == 1` path of `histogram_bin_edges`, which
returns `bins` unchanged).  Sample/weight values, promoted to an inexact
dtype in the source, are modelled as integers. -/

/-- One scatter-add update of `counts.at[idx].add(w)`: out-of-bounds
indices are dropped, as in the XLA scatter. -/
def histStep (buf : List Int) (iw : Nat × Int) : List Int :=
  if iw.1 < buf.length then buf.set iw.1 (buf.getD iw.1 0 + iw.2) else buf

/-- The counts returned by `histogram(a, bins, weights)` (without
`density`): `bin_idx = searchsorted(bin_edges, a, side='right')`, samples
equal to the last edge are reassigned to the final bin, and weights are
scatter-added into a buffer of length `len(bin_edges)` whose leading
slot is dropped. -/
def histogramCounts (edges samples weights : List Int) : List Int :=
  ((((samples.zip (searchsorted edges samples Side.right Method.scan)).map
      (fun sv => if sv.1 = edges.getD (edges.length - 1) 0
        then edges.length - 1 else sv.2)).zip weights).foldl
    histStep (List.replicate edges.length 0)).drop 1

example : histogramCounts [0, 10, 20, 30] [1, 2, 3, 10, 11, 15, 19, 25]
    [1, 1, 1, 1, 1, 1, 1, 1] = [3, 4, 1] := by decide

theorem sum_set_add (t : List Int) : ∀ (m : Nat) (w : Int), m < t.length →
    (t.set m (t.getD m 0 + w)).sum = t.sum + w := by
  induction t with
  | nil => intro m w hm; simp at hm
  | cons y s ih =>
    intro m w hm
    match m with
    | 0 => simp [List.sum_cons]; ring
    | m + 1 =>
      rw [List.getD_cons_succ, List.set_cons_succ, List.sum_cons, List.sum_cons,
        ih m w (by simpa using hm)]
      ring

theorem histStep_length (buf : List Int) (iw : Nat × Int) :
    (histStep buf iw).length = buf.length := by
  unfold histStep
  split <;> simp

theorem histStep_drop_sum (buf : List Int) (i : Nat) (w : Int)
    (h1 : 1 ≤ i) (h2 : i < buf.length) :
    ((histStep buf (i, w)).drop 1).sum = (buf.drop 1).sum + w := by
  unfold histStep
  rw [if_pos h2]
  match buf, i with
  | x :: t, i + 1 =>
    rw [List.getD_cons_succ, List.set_cons_succ]
    simp only [List.drop_one, List.tail_cons]
    exact sum_set_add t i w (by simpa using h2)

theorem histFold_drop_sum (pairs : List (Nat × Int)) : ∀ buf : List Int,
    (∀ p ∈ pairs, 1 ≤ p.1 ∧ p.1 < buf.length) →
    ((pairs.foldl histStep buf).drop 1).sum = (buf.drop 1).sum + (pairs.map Prod.snd).sum := by
  induction pairs with
  | nil => intro buf _; simp
  | cons p rest ih =>
    intro buf hmem
    obtain ⟨h1, h2⟩ := hmem p (List.mem_cons_self p rest)
    rw [List.foldl_cons, List.map_cons, List.sum_cons,
      ih (histStep buf p) (by
        intro r hr
        rw [histStep_length]
        exact hmem r (List.mem_cons_of_mem p hr))]
    obtain ⟨i, w⟩ := p
    rw [histStep_drop_sum buf i w h1 h2]
    ring

theorem zip_self_map (l : List Int) (f : Int → Nat) :
    l.zip (l.map f) = l.map (fun v => (v, f v)) := by
  induction l with
  | nil => rfl
  | cons y t ih => simp [ih]

/-- Bounds on the assigned bin index for an in-range sample, given at
least two bin edges. -/
theorem binIdx_bounds (edges : List Int) (hlen2 : 2 ≤ edges.length) (v : Int)
    (hlo : edges.getD 0 0 ≤ v) (hhi : v ≤ edges.getD (edges.length - 1) 0) :
    1 ≤ (if v = edges.getD (edges.length - 1) 0 then edges.length - 1
          else countLe edges v) ∧
      (if v = edges.getD (edges.length - 1) 0 then edges.length - 1
          else countLe edges v) < edges.length := by
  by_cases hv : v = edges.getD (edges.length - 1) 0
  · rw [if_pos hv]
    omega
  · rw [if_neg hv]
    have hne : edges ≠ [] := by
      intro h
      rw [h] at hlen2
      simp at hlen2
    have hlow : 1 ≤ countLe edges v := by
      unfold countLe
      apply List.countP_pos_iff.mpr
      refine ⟨edges.getD 0 0, ?_, by simpa using hlo⟩
      rw [List.getD_eq_getElem edges 0 (by omega)]
      exact List.getElem_mem _
    have hvlt : v < edges.getD (edges.length - 1) 0 := by
      omega
    have hlast : edges.dropLast ++ [edges.getLast hne] = edges :=
      List.dropLast_append_getLast hne
    have hgetlast : edges.getLast hne = edges.getD (edges.length - 1) 0 := by
      rw [List.getLast_eq_getElem, List.getD_eq_getElem edges 0 (by omega)]
    have hhigh : countLe edges v ≤ edges.length - 1 := by
      unfold countLe
      conv_lhs => rw [← hlast]
      rw [List.countP_append]
      have h1 : List.countP (fun x => decide (x ≤ v)) edges.dropLast ≤ edges.dropLast.length :=
        List.countP_le_length _
      have h2 : List.countP (fun x => decide (x ≤ v)) [edges.getLast hne] = 0 := by
        rw [List.countP_cons, List.countP_nil, hgetlast]
        simp only [decide_eq_true_eq]
        rw [if_neg (by omega)]
      rw [h2]
      simp only [List.length_dropLast] at h1
      omega
    omega

/-- Helper: the assigned bin-index list of `histogramCounts` in closed
form, on sorted edges. -/
theorem histogramCounts_eq (edges samples weights : List Int)
    (hs : edges.Sorted (· ≤ ·)) (hlen : edges.length < 2 ^ 63) :
    histogramCounts edges samples weights =
      ((((samples.map (fun v => if v = edges.getD (edges.length - 1) 0
          then edges.length - 1 else countLe edges v)).zip weights).foldl
        histStep (List.replicate edges.length 0)).drop 1) := by
  unfold histogramCounts
  rw [searchsorted_eq_spec edges samples Side.right Method.scan hs hlen]
  rw [zip_self_map samples (fun x => specCount Side.right edges x), List.map_map]
  rfl

/-- C5 (amended): with at least two bin edges, `histogram` conserves
total weight for samples within the edge range. -/
theorem histogram_conserves_weight (edges samples weights : List Int)
    (hs : edges.Sorted (· ≤ ·)) (hlen2 : 2 ≤ edges.length)
    (hlen : edges.length < 2 ^ 63) (hw : samples.length = weights.length)
    (hin : ∀ v ∈ samples,
      edges.getD 0 0 ≤ v ∧ v ≤ edges.getD (edges.length - 1) 0) :
    (histogramCounts edges samples weights).sum = weights.sum := by
  rw [histogramCounts_eq edges samples weights hs hlen]
  set f : Int → Nat := fun v => if v = edges.getD (edges.length - 1) 0
      then edges.length - 1 else countLe edges v with hf
  have hbound : ∀ p ∈ (samples.map f).zip weights,
      1 ≤ p.1 ∧ p.1 < (List.replicate edges.length (0 : Int)).length := by
    intro p hp
    have hp1 : p.1 ∈ samples.map f := (List.of_mem_zip hp).1
    rw [List.mem_map] at hp1
    obtain ⟨v, hv, hfv⟩ := hp1
    obtain ⟨hlo, hhi⟩ := hin v hv
    have := binIdx_bounds edges hlen2 v hlo hhi
    rw [List.length_replicate]
    rw [← hfv]
    exact this
  rw [histFold_drop_sum _ _ hbound]
  have hsnd : ((samples.map f).zip weights).map Prod.snd = weights := by
    apply List.map_snd_zip
    rw [List.length_map]
    omega
  rw [hsnd]
  have hrep : ((List.replicate edges.length (0 : Int)).drop 1).sum = 0 := by
    rw [List.drop_replicate]
    simp
  rw [hrep]
  ring

theorem histogram_conserves_weight_witness :
    (histogramCounts [1, 4, 7] [1, 2, 7, 4] [1, 1, 1, 1]).sum = 4 :=
  (histogram_conserves_weight [1, 4, 7] [1, 2, 7, 4] [1, 1, 1, 1]
    (by decide) (by decide) (by decide) (by decide) (by decide)).trans (by decide)

/-! ## Scatter-edit engine: `repeat` (scalar-count fast path)

Source: `_repeat` (`lax_numpy.py`).  For a 1-D input with `axis=None` and
a scalar `repeats`, the fast path broadcasts to an auxiliary `(n, k)`
shape and reshapes to `(n*k,)`: row-major output position `j` holds
`a[j / k]`. -/

def repeatScalar (a : List Int) (k : Nat) : List Int :=
  (List.range (a.length * k)).map (fun j => a.getD (j / k) 0)

example : repeatScalar [1, 2] 2 = [1, 1, 2, 2] := by decide
example : repeatScalar [1, 2] 0 = [] := by decide

/-- C7: `repeat(a, k)` for scalar `k` has output length `k * len(a)`, and
output positions `i*k + t` for `t < k` hold `a[i]` (so the slice
`[i*k : (i+1)*k]` is `a[i]` repeated `k` times). -/
theorem repeat_scalar_spec (a : List Int) (k : Nat) :
    (repeatScalar a k).length = k * a.length ∧
    ∀ i, i < a.length → ∀ t, t < k →
      (repeatScalar a k).getD (i * k + t) 0 = a.getD i 0 := by
  constructor
  · unfold repeatScalar
    rw [List.length_map, List.length_range]
    ring
  · intro i hi t ht
    have hk : 0 < k := by omega
    have hj : i * k + t < a.length * k := by
      have h1 : i + 1 ≤ a.length := hi
      calc i * k + t < i * k + k := by omega
      _ = (i + 1) * k := by ring
      _ ≤ a.length * k := Nat.mul_le_mul_right k h1
    unfold repeatScalar
    rw [List.getD_eq_getElem _ 0 (by simpa using hj)]
    simp only [List.getElem_map, List.getElem_range]
    congr 1
    rw [mul_comm i k, Nat.mul_add_div hk, Nat.div_eq_of_lt ht]
    omega

theorem repeat_scalar_spec_witness :
    (repeatScalar [4, 5, 6] 2).length = 2 * 3 ∧
    (repeatScalar [4, 5, 6] 2).getD (1 * 2 + 1) 0 = ([4, 5, 6] : List Int).getD 1 0 :=
  ⟨(repeat_scalar_spec [4, 5, 6] 2).1,
   (repeat_scalar_spec [4, 5, 6] 2).2 1 (by decide) 1 (by decide)⟩

/-! ## Scatter-edit engine: `insert` and `delete` (1-D, `axis=None`)

Source: `insert` and `delete` (`lax_numpy.py`), for a one-dimensional
input and an integer index array `obj`. -/

/-- Normalization of one insertion position: negative entries are shifted
by the axis length, then the result is clipped to `[0, n]`
(`where(indices < 0, indices + n_input, indices)` then
`clip(indices, 0, n_input)`). -/
def normIdx (n : Nat) (x : Int) : Nat :=
  (min (max (if x < 0 then x + n else x) 0) (n : Int)).toNat

/-- Stable-sort rank of position `p` in `xs` (the inverse of a stable
`argsort`): the number of strictly smaller entries plus the number of
equal entries at earlier positions. -/
def stableRank (xs : List Nat) (p : Nat) : Nat :=
  xs.countP (fun y => decide (y < xs.getD p 0)) +
    (xs.take p).countP (fun y => decide (y = xs.getD p 0))

/-- `values_ind = indices.at[argsort(indices)].add(arange(n_insert))`:
position `p` receives its own index plus its stable rank. -/
def valuesInd (xs : List Nat) : List Nat :=
  (List.range xs.length).map (fun p => xs.getD p 0 + stableRank xs p)

/-- `broadcast_shapes` on two 1-D lengths. -/
def bcastLen (x y : Nat) : Nat :=
  if x = y then x else if x = 1 then y else if y = 1 then x else max x y

/-- The index array of `insert` after the singleton broadcast
(`indices = full(values.shape[axis], index)` when `indices.size == 1`). -/
def insertIndices (obj : List Int) (valuesLen : Nat) : List Int :=
  if obj.length = 1 then List.replicate valuesLen (obj.getD 0 0) else obj

/-- The number of inserted slots `n_insert`. -/
def insertN (obj : List Int) (valuesLen : Nat) : Nat :=
  bcastLen (insertIndices obj valuesLen).length valuesLen

/-- The normalized (shifted and clipped) insertion positions. -/
def insertIndC (n : Nat) (obj : List Int) (valuesLen : Nat) : List Nat :=
  (insertIndices obj valuesLen).map (normIdx n)

/-- The output positions occupied by the inserted values (the adjusted
indices `values_ind`). -/
def insertAdjusted (n : Nat) (obj : List Int) (valuesLen : Nat) : List Nat :=
  valuesInd (insertIndC n obj valuesLen)

/-- Sequential scatter of `vs` into `buf` at positions `ps`
(`buf.at[ps].set(vs)`); out-of-bounds updates are dropped (`List.set`
out of range is the identity, matching the XLA scatter). -/
def scatterSetN (buf : List Int) (ps : List Nat) (vs : List Int) : List Int :=
  (ps.zip vs).foldl (fun b pv => b.set pv.1 pv.2) buf

/-- `arr_mask = ones(n_input + n_insert, bool).at[values_ind].set(False)`. -/
def insertMask (total : Nat) (vInd : List Nat) : List Bool :=
  vInd.foldl (fun m p => m.set p false) (List.replicate total true)

/-- `where(arr_mask, size=k)[0]`: positions of `True`, truncated to `k`
entries and padded with the fill value `0`. -/
def whereSize (mask : List Bool) (k : Nat) : List Nat :=
  ((List.range mask.length).filter (fun t => mask.getD t false)).take k ++
    List.replicate
      (k - ((List.range mask.length).filter (fun t => mask.getD t false)).length) 0

/-- 1-D `insert` (`axis=None`) with an integer index array `obj`: the
values are scattered at the adjusted indices and the original entries at
the remaining positions of a fresh zero buffer of the statically enlarged
length. -/
def insert1 (a obj values : List Int) : List Int :=
  scatterSetN
    (scatterSetN (List.replicate (a.length + insertN obj values.length) 0)
      (insertAdjusted a.length obj values.length)
      (if values.length = 1
        then List.replicate (insertN obj values.length) (values.getD 0 0) else values))
    (whereSize
      (insertMask (a.length + insertN obj values.length)
        (insertAdjusted a.length obj values.length))
      a.length)
    a

example : insert1 [0, 1, 2, 3, 4] [4, 2, 5] [10, 11, 12] = [0, 1, 11, 2, 3, 10, 4, 12] := by
  decide
example : insert1 [0, 1, 2, 3, 4] [2] [99] = [0, 1, 99, 2, 3, 4] := by decide

/-- One step of the NumPy fancy-index assignment `mask[obj] = False`:
negative indices wrap by the axis length, in-range positions are cleared
(an out-of-range entry, an eager NumPy `IndexError`, is ignored here —
the claims only exercise in-range indices). -/
def deleteMaskStep (n : Nat) (m : List Bool) (x : Int) : List Bool :=
  let p := if x < 0 then x + (n : Int) else x
  if 0 ≤ p ∧ p < (n : Int) then m.set p.toNat false else m

/-- Case 3b of `delete`: build the complement boolean mask and keep the
masked entries (`a[mask]`). -/
def deleteWithMask (a : List Int) (obj : List Int) : List Int :=
  ((List.range a.length).filter
    (fun t => (obj.foldl (deleteMaskStep a.length)
      (List.replicate a.length true)).getD t false)).map
    (fun t => a.getD t 0)

/-- Case 3a of `delete` (`assume_unique_indices`): normalize and sort the
positions, subtract `arange`, and gather each surviving slot at its own
position offset by the number of deletions at or before it. -/
def deleteUnique (a : List Int) (obj : List Int) : List Int :=
  let s := (obj.map (fun x =>
    min (max (if x < 0 then x + (a.length : Int) else x) 0) (a.length : Int))).mergeSort
    (fun x y => decide (x ≤ y))
  let s2 := (List.range s.length).map (fun j => s.getD j 0 - (j : Int))
  (List.range (a.length - s.length)).map
    (fun (t : Nat) => jaxGet a (t + s2.countP (fun o => decide (o ≤ (t : Int)))))

/-- 1-D `delete` (`axis=None`) with an integer index array `obj`:
`assume_unique_indices` selects between the JIT-compatible offset path
(case 3a) and the static boolean-mask path (case 3b). -/
def delete1 (a : List Int) (obj : List Int) (assumeUnique : Bool) : List Int :=
  if assumeUnique then deleteUnique a obj else deleteWithMask a obj

example : delete1 [4, 5, 6, 7, 8, 9] [0, 1, 3] false = [6, 8, 9] := by decide

/-! ### List-scatter helper lemmas -/

theorem getD_set_self {α : Type} (l : List α) (i : Nat) (v d : α) (h : i < l.length) :
    (l.set i v).getD i d = v := by
  rw [List.getD_eq_getElem _ d (by simpa using h)]
  exact List.getElem_set_self _

theorem getD_set_ne {α : Type} (l : List α) (i t : Nat) (v d : α) (h : i ≠ t) :
    (l.set i v).getD t d = l.getD t d := by
  rw [List.getD_eq_getElem?_getD, List.getD_eq_getElem?_getD, List.getElem?_set_ne h]

theorem scatterSetN_length (ps : List Nat) : ∀ (buf vs : List Int),
    (scatterSetN buf ps vs).length = buf.length := by
  unfold scatterSetN
  induction ps with
  | nil => intro buf vs; rfl
  | cons p rest ih =>
    intro buf vs
    match vs with
    | [] => rfl
    | v :: vt =>
      rw [List.zip_cons_cons, List.foldl_cons]
      rw [ih (buf.set p v) vt]
      exact List.length_set ..

theorem scatterSetN_getD_not_mem (ps : List Nat) : ∀ (buf vs : List Int) (t : Nat),
    t ∉ ps → (scatterSetN buf ps vs).getD t 0 = buf.getD t 0 := by
  unfold scatterSetN
  induction ps with
  | nil => intro buf vs t _; rfl
  | cons p rest ih =>
    intro buf vs t ht
    match vs with
    | [] => rfl
    | v :: vt =>
      rw [List.zip_cons_cons, List.foldl_cons]
      rw [ih (buf.set p v) vt t (fun hmem => ht (List.mem_cons_of_mem p hmem))]
      exact getD_set_ne buf p t v 0 (fun heq => ht (heq ▸ List.mem_cons_self p rest))

theorem scatterSetN_getD_mem (ps : List Nat) : ∀ (buf vs : List Int) (j : Nat),
    ps.Nodup → ps.length ≤ vs.length → j < ps.length → ps.getD j 0 < buf.length →
    (scatterSetN buf ps vs).getD (ps.getD j 0) 0 = vs.getD j 0 := by
  induction ps with
  | nil => intro buf vs j _ _ hj _; simp at hj
  | cons p rest ih =>
    intro buf vs j hnd hlen hj hb
    rw [List.nodup_cons] at hnd
    match vs with
    | [] => simp at hlen
    | v :: vt =>
      show (scatterSetN (buf.set p v) rest vt).getD ((p :: rest).getD j 0) 0
        = (v :: vt).getD j 0
      match j with
      | 0 =>
        rw [List.getD_cons_zero, List.getD_cons_zero]
        rw [scatterSetN_getD_not_mem rest (buf.set p v) vt p hnd.1]
        exact getD_set_self buf p v 0 (by simpa using hb)
      | j + 1 =>
        rw [List.getD_cons_succ, List.getD_cons_succ]
        exact ih (buf.set p v) vt j hnd.2 (by simpa using hlen) (by simpa using hj)
          (by rw [List.length_set]; simpa using hb)

theorem foldSetFalse_getD (ps : List Nat) : ∀ (m : List Bool) (t : Nat), t < m.length →
    (ps.foldl (fun m p => m.set p false) m).getD t false
      = (m.getD t false && decide (t ∉ ps)) := by
  induction ps with
  | nil => intro m t _; simp
  | cons p rest ih =>
    intro m t ht
    rw [List.foldl_cons, ih (m.set p false) t (by simpa using ht)]
    by_cases hp : t = p
    · subst hp
      rw [getD_set_self m t false false ht]
      simp
    · rw [getD_set_ne m p t false false (fun h => hp h.symm)]
      by_cases hr : t ∈ rest
      · simp [hr]
      · simp [hr, hp]

theorem foldSetFalse_length (ps : List Nat) : ∀ (m : List Bool),
    (ps.foldl (fun m p => m.set p false) m).length = m.length := by
  induction ps with
  | nil => intro m; rfl
  | cons p rest ih =>
    intro m
    rw [List.foldl_cons, ih (m.set p false), List.length_set]

theorem insertMask_length (total : Nat) (ps : List Nat) :
    (insertMask total ps).length = total := by
  unfold insertMask
  rw [foldSetFalse_length, List.length_replicate]

theorem insertMask_getD (total : Nat) (ps : List Nat) (t : Nat) (ht : t < total) :
    (insertMask total ps).getD t false = decide (t ∉ ps) := by
  unfold insertMask
  rw [foldSetFalse_getD ps _ t (by simpa using ht)]
  rw [List.getD_eq_getElem _ false (by simpa using ht)]
  simp

/-! ### Rank and adjusted-index lemmas -/

theorem countP_add_le_countP (l : List Nat) (p q r : Nat → Bool)
    (hp : ∀ y, p y = true → r y = true) (hq : ∀ y, q y = true → r y = true)
    (hdisj : ∀ y, p y = true → q y = true → False) :
    l.countP p + l.countP q ≤ l.countP r := by
  induction l with
  | nil => simp
  | cons y t ih =>
    rw [List.countP_cons, List.countP_cons, List.countP_cons]
    by_cases hpy : p y = true
    · have hry : r y = true := hp y hpy
      have hqy : ¬ q y = true := fun h => hdisj y hpy h
      rw [if_pos hpy, if_pos hry, if_neg hqy]
      omega
    · by_cases hqy : q y = true
      · have hry : r y = true := hq y hqy
        rw [if_pos hqy, if_pos hry, if_neg hpy]
        omega
      · rw [if_neg hpy, if_neg hqy]
        split <;> omega

theorem take_getD_drop (xs : List Nat) (j : Nat) (hj : j < xs.length) :
    xs.take j ++ xs.getD j 0 :: xs.drop (j + 1) = xs := by
  rw [List.getD_eq_getElem xs 0 hj, ← List.drop_eq_getElem_cons hj, List.take_append_drop]

theorem stableRank_lt (xs : List Nat) (j : Nat) (hj : j < xs.length) :
    stableRank xs j < xs.length := by
  unfold stableRank
  set x := xs.getD j 0 with hx
  have hsplit : xs.take j ++ x :: xs.drop (j + 1) = xs := take_getD_drop xs j hj
  have h1 : xs.countP (fun y => decide (y < x))
      = (xs.take j).countP (fun y => decide (y < x))
        + (xs.drop (j + 1)).countP (fun y => decide (y < x)) := by
    conv_lhs => rw [← hsplit]
    rw [List.countP_append, List.countP_cons]
    simp
  have h2 : (xs.take j).countP (fun y => decide (y < x))
      + (xs.take j).countP (fun y => decide (y = x)) ≤ (xs.take j).length := by
    have hle := countP_add_le_countP (xs.take j)
      (fun y => decide (y < x)) (fun y => decide (y = x))
      (fun _ => true)
      (fun y _ => rfl) (fun y _ => rfl)
      (by intro y hy1 hy2; simp only [decide_eq_true_eq] at hy1 hy2; omega)
    have hall : (xs.take j).countP (fun _ => true) = (xs.take j).length := by
      simp
    omega
  have h3 : (xs.drop (j + 1)).countP (fun y => decide (y < x))
      ≤ (xs.drop (j + 1)).length := List.countP_le_length _
  rw [List.length_take] at h2
  rw [List.length_drop] at h3
  omega

theorem stableRank_of_nodup (xs : List Nat) (hnd : xs.Nodup) (j : Nat) (hj : j < xs.length) :
    stableRank xs j = xs.countP (fun y => decide (y < xs.getD j 0)) := by
  unfold stableRank
  have hz : (xs.take j).countP (fun y => decide (y = xs.getD j 0)) = 0 := by
    rw [List.countP_eq_zero]
    intro y hy
    simp only [decide_eq_true_eq]
    intro heq
    obtain ⟨i, hi, hieq⟩ := List.getElem_of_mem hy
    rw [List.getElem_take] at hieq
    have hij : i < j := by
      have := hi
      rw [List.length_take] at this
      omega
    rw [List.getD_eq_getElem xs 0 hj] at heq
    have : i = j := (List.Nodup.getElem_inj_iff hnd).mp (by rw [hieq, heq])
    omega
  omega

theorem valuesInd_length (xs : List Nat) : (valuesInd xs).length = xs.length := by
  unfold valuesInd
  rw [List.length_map, List.length_range]

theorem valuesInd_getD (xs : List Nat) (j : Nat) (hj : j < xs.length) :
    (valuesInd xs).getD j 0 = xs.getD j 0 + stableRank xs j := by
  unfold valuesInd
  rw [List.getD_eq_getElem _ 0 (by simpa using hj)]
  simp

theorem valuesInd_mem_lt (xs : List Nat) (n : Nat) (hle : ∀ p ∈ xs, p ≤ n) :
    ∀ p ∈ valuesInd xs, p < n + xs.length := by
  intro p hp
  unfold valuesInd at hp
  rw [List.mem_map] at hp
  obtain ⟨j, hj, hje⟩ := hp
  rw [List.mem_range] at hj
  have h1 : xs.getD j 0 ≤ n := by
    apply hle
    rw [List.getD_eq_getElem xs 0 hj]
    exact List.getElem_mem hj
  have h2 := stableRank_lt xs j hj
  omega

theorem valuesInd_nodup (xs : List Nat) (hnd : xs.Nodup) : (valuesInd xs).Nodup := by
  unfold valuesInd
  apply List.Nodup.map_on _ (List.nodup_range _)
  intro j hj j2 hj2 heq
  rw [List.mem_range] at hj hj2
  have hmono : ∀ i i2, i < xs.length → i2 < xs.length → xs.getD i 0 < xs.getD i2 0 →
      xs.getD i 0 + stableRank xs i < xs.getD i2 0 + stableRank xs i2 := by
    intro i i2 hi hi2 hlt
    rw [stableRank_of_nodup xs hnd i hi, stableRank_of_nodup xs hnd i2 hi2]
    have hcount : xs.countP (fun y => decide (y < xs.getD i 0))
        + xs.countP (fun y => decide (y = xs.getD i 0))
        ≤ xs.countP (fun y => decide (y < xs.getD i2 0)) := by
      apply countP_add_le_countP
      · intro y hy; simp only [decide_eq_true_eq] at hy ⊢; omega
      · intro y hy; simp only [decide_eq_true_eq] at hy ⊢; omega
      · intro y hy1 hy2; simp only [decide_eq_true_eq] at hy1 hy2; omega
    have hone : 1 ≤ xs.countP (fun y => decide (y = xs.getD i 0)) := by
      apply List.countP_pos_iff.mpr
      refine ⟨xs.getD i 0, ?_, by simp⟩
      rw [List.getD_eq_getElem xs 0 hi]
      exact List.getElem_mem hi
    omega
  rcases Nat.lt_trichotomy (xs.getD j 0) (xs.getD j2 0) with hlt | heq2 | hgt
  · have := hmono j j2 hj hj2 hlt
    omega
  · rw [List.getD_eq_getElem xs 0 hj, List.getD_eq_getElem xs 0 hj2] at heq2
    exact (List.Nodup.getElem_inj_iff hnd).mp heq2
  · have := hmono j2 j hj2 hj hgt
    omega

theorem normIdx_le (n : Nat) (x : Int) : normIdx n x ≤ n := by
  unfold normIdx
  split <;> omega

theorem normIdx_in_range (n : Nat) (x : Int) (h1 : 0 ≤ x) (h2 : x ≤ (n : Int)) :
    (normIdx n x : Int) = x := by
  unfold normIdx
  split <;> omega

theorem insertIndices_eq_self (obj : List Int) (vlen : Nat) (h : obj.length = vlen) :
    insertIndices obj vlen = obj := by
  unfold insertIndices
  by_cases h1 : obj.length = 1
  · rw [if_pos h1]
    match obj with
    | [x] =>
      simp at h
      rw [← h]
      rfl
  · rw [if_neg h1]

theorem insertN_eq_length (obj : List Int) (vlen : Nat)
    (hc : obj.length = vlen ∨ obj.length = 1 ∨ vlen = 1) :
    insertN obj vlen = (insertIndices obj vlen).length := by
  unfold insertN insertIndices bcastLen
  by_cases h1 : obj.length = 1
  · rw [if_pos h1]
    rw [List.length_replicate]
    rw [if_pos rfl]
  · rw [if_neg h1]
    rcases hc with h | h | h
    · rw [if_pos h]
    · omega
    · rw [h]
      split_ifs <;> omega

theorem insertIndC_length (n : Nat) (obj : List Int) (vlen : Nat) :
    (insertIndC n obj vlen).length = (insertIndices obj vlen).length := by
  unfold insertIndC
  exact List.length_map ..

theorem insertAdjusted_length (n : Nat) (obj : List Int) (vlen : Nat) :
    (insertAdjusted n obj vlen).length = (insertIndices obj vlen).length := by
  unfold insertAdjusted
  rw [valuesInd_length, insertIndC_length]

theorem insertAdjusted_mem_lt (n : Nat) (obj : List Int) (vlen : Nat) :
    ∀ p ∈ insertAdjusted n obj vlen, p < n + (insertIndices obj vlen).length := by
  unfold insertAdjusted
  intro p hp
  have hle : ∀ q ∈ insertIndC n obj vlen, q ≤ n := by
    intro q hq
    unfold insertIndC at hq
    rw [List.mem_map] at hq
    obtain ⟨x, _, hx⟩ := hq
    rw [← hx]
    exact normIdx_le n x
  have := valuesInd_mem_lt (insertIndC n obj vlen) n hle p hp
  rw [insertIndC_length] at this
  exact this

/-- C9: `insert` never fails for out-of-range integer insertion
positions: each position is shifted by the axis length when negative and
then clipped into `[0, n]`, every adjusted scatter position stays
strictly below the enlarged length, and the result always has the
statically enlarged shape `n + n_insert`. -/
theorem insert_total_shape (a obj values : List Int)
    (hc : obj.length = values.length ∨ obj.length = 1 ∨ values.length = 1) :
    (insert1 a obj values).length = a.length + insertN obj values.length ∧
    (∀ x : Int, normIdx a.length x ≤ a.length) ∧
    ∀ p ∈ insertAdjusted a.length obj values.length,
      p < a.length + insertN obj values.length := by
  refine ⟨?_, fun x => normIdx_le a.length x, ?_⟩
  · unfold insert1
    rw [scatterSetN_length, scatterSetN_length, List.length_replicate]
  · rw [insertN_eq_length obj values.length hc]
    exact insertAdjusted_mem_lt a.length obj values.length

theorem insert_total_shape_witness :
    (insert1 [1, 2, 3] [-100, 7] [8, 9]).length = 3 + insertN [-100, 7] 2 ∧
    (∀ x : Int, normIdx 3 x ≤ 3) ∧
    ∀ p ∈ insertAdjusted 3 [-100, 7] 2, p < 3 + insertN [-100, 7] 2 :=
  insert_total_shape [1, 2, 3] [-100, 7] [8, 9] (Or.inl rfl)

/-! ### The insert/delete round trip -/

theorem insertIndC_nodup (n : Nat) (obj : List Int) (vlen : Nat)
    (hlen : obj.length = vlen)
    (hrange : ∀ x ∈ obj, 0 ≤ x ∧ x ≤ (n : Int)) (hnd : obj.Nodup) :
    (insertIndC n obj vlen).Nodup := by
  unfold insertIndC
  rw [insertIndices_eq_self obj vlen hlen]
  apply List.Nodup.map_on _ hnd
  intro x hx y hy heq
  have h1 := normIdx_in_range n x (hrange x hx).1 (hrange x hx).2
  have h2 := normIdx_in_range n y (hrange y hy).1 (hrange y hy).2
  omega

theorem deleteMaskStep_cast (n : Nat) (m : List Bool) (q : Nat) (hq : q < n) :
    deleteMaskStep n m (q : Int) = m.set q false := by
  show (if (0 : Int) ≤ (if (q : Int) < 0 then (q : Int) + (n : Int) else (q : Int)) ∧
      (if (q : Int) < 0 then (q : Int) + (n : Int) else (q : Int)) < (n : Int)
    then m.set (if (q : Int) < 0 then (q : Int) + (n : Int) else (q : Int)).toNat false
    else m) = m.set q false
  rw [if_neg (show ¬ ((q : Int) < 0) by omega)]
  rw [if_pos (show (0 : Int) ≤ (q : Int) ∧ (q : Int) < (n : Int) from ⟨by omega, by omega⟩)]
  simp

theorem deleteFold_getD (n : Nat) (P : List Nat) : ∀ (m : List Bool) (t : Nat),
    t < m.length → (∀ p ∈ P, p < n) →
    ((P.map (fun (p : Nat) => (p : Int))).foldl (deleteMaskStep n) m).getD t false
      = (m.getD t false && decide (t ∉ P)) := by
  induction P with
  | nil => intro m t _ _; simp
  | cons q rest ih =>
    intro m t ht hp
    have hq : q < n := hp q (List.mem_cons_self q rest)
    rw [List.map_cons, List.foldl_cons, deleteMaskStep_cast n m q hq]
    rw [ih (m.set q false) t (by simpa using ht)
      (fun p hp2 => hp p (List.mem_cons_of_mem q hp2))]
    by_cases hqt : t = q
    · subst hqt
      rw [getD_set_self m t false false ht]
      simp
    · rw [getD_set_ne m q t false false (fun h => hqt h.symm)]
      by_cases hr : t ∈ rest
      · simp [hr]
      · simp [hr, hqt]

/-- Reading back a scatter at its own (distinct, in-bounds) positions
recovers the scattered values. -/
theorem scatterSetN_map_getD (ps : List Nat) : ∀ (buf vs : List Int),
    ps.Nodup → ps.length = vs.length → (∀ p ∈ ps, p < buf.length) →
    ps.map (fun t => (scatterSetN buf ps vs).getD t 0) = vs := by
  induction ps with
  | nil =>
    intro buf vs _ hlen _
    match vs with
    | [] => rfl
    | v :: vt => simp at hlen
  | cons p rest ih =>
    intro buf vs hnd hlen hb
    rw [List.nodup_cons] at hnd
    match vs with
    | [] => simp at hlen
    | v :: vt =>
      show (p :: rest).map (fun t => (scatterSetN (buf.set p v) rest vt).getD t 0) = v :: vt
      rw [List.map_cons]
      congr 1
      · rw [scatterSetN_getD_not_mem rest _ vt p hnd.1]
        exact getD_set_self buf p v 0 (hb p (List.mem_cons_self p rest))
      · exact ih (buf.set p v) vt hnd.2 (by simpa using hlen)
          (fun r hr => by
            rw [List.length_set]
            exact hb r (List.mem_cons_of_mem p hr))

theorem filter_not_mem_length (total : Nat) (P : List Nat) (hnd : P.Nodup)
    (hP : ∀ p ∈ P, p < total) :
    ((List.range total).filter (fun t => decide (t ∉ P))).length = total - P.length := by
  have hperm : List.Perm ((List.range total).filter (fun t => decide (t ∈ P))) P := by
    rw [List.perm_ext_iff_of_nodup (List.Nodup.filter _ (List.nodup_range total)) hnd]
    intro t
    rw [List.mem_filter, List.mem_range]
    simp only [decide_eq_true_eq]
    constructor
    · exact fun h => h.2
    · intro h
      exact ⟨hP t h, h⟩
  have hsplit := List.filter_append_perm (fun t => decide (t ∈ P)) (List.range total)
  have hlen := hsplit.length_eq
  rw [List.length_append, List.length_range] at hlen
  have hposlen := hperm.length_eq
  have hcongr : (List.range total).filter (fun t => decide (t ∉ P))
      = (List.range total).filter (fun t => !decide (t ∈ P)) := by
    apply List.filter_congr
    intro t _
    exact decide_not
  rw [hcongr]
  omega

theorem whereSize_insertMask (n k : Nat) (P : List Nat) (hnd : P.Nodup)
    (hP : ∀ p ∈ P, p < n + k) (hPk : P.length = k) :
    whereSize (insertMask (n + k) P) n
      = (List.range (n + k)).filter (fun t => decide (t ∉ P)) := by
  unfold whereSize
  rw [insertMask_length]
  have hcong : (List.range (n + k)).filter (fun t => (insertMask (n + k) P).getD t false)
      = (List.range (n + k)).filter (fun t => decide (t ∉ P)) := by
    apply List.filter_congr
    intro t ht
    rw [List.mem_range] at ht
    rw [insertMask_getD (n + k) P t ht]
  rw [hcong]
  have hFlen : ((List.range (n + k)).filter (fun t => decide (t ∉ P))).length = n := by
    rw [filter_not_mem_length (n + k) P hnd hP, hPk]
    omega
  rw [List.take_of_length_le (by omega), hFlen]
  simp

/-- C8: for unique in-range insertion indices, deleting from
`insert(a, i, v)` the positions actually occupied by the inserted values
(the adjusted indices) returns exactly `a`. -/
theorem delete_insert_roundtrip (a obj values : List Int)
    (hlen : obj.length = values.length)
    (hrange : ∀ x ∈ obj, 0 ≤ x ∧ x ≤ (a.length : Int))
    (hnd : obj.Nodup) :
    delete1 (insert1 a obj values)
      ((insertAdjusted a.length obj values.length).map (fun (p : Nat) => (p : Int))) false = a := by
  have hIlen : (insertIndices obj values.length).length = obj.length := by
    rw [insertIndices_eq_self obj values.length hlen]
  have hN : insertN obj values.length = obj.length := by
    rw [insertN_eq_length obj values.length (Or.inl hlen), hIlen]
  have hCnd : (insertIndC a.length obj values.length).Nodup :=
    insertIndC_nodup a.length obj values.length hlen hrange hnd
  have hPnd : (insertAdjusted a.length obj values.length).Nodup := valuesInd_nodup _ hCnd
  have hPlt : ∀ p ∈ insertAdjusted a.length obj values.length,
      p < a.length + obj.length := by
    have h := insertAdjusted_mem_lt a.length obj values.length
    rw [hIlen] at h
    exact h
  have hPlen : (insertAdjusted a.length obj values.length).length = obj.length := by
    rw [insertAdjusted_length, hIlen]
  have hout : insert1 a obj values
      = scatterSetN
          (scatterSetN (List.replicate (a.length + obj.length) 0)
            (insertAdjusted a.length obj values.length)
            (if values.length = 1
              then List.replicate (insertN obj values.length) (values.getD 0 0) else values))
          ((List.range (a.length + obj.length)).filter
            (fun t => decide (t ∉ insertAdjusted a.length obj values.length)))
          a := by
    unfold insert1
    rw [hN]
    rw [whereSize_insertMask a.length obj.length _ hPnd hPlt hPlen]
  have hOutLen : (insert1 a obj values).length = a.length + obj.length := by
    rw [hout, scatterSetN_length, scatterSetN_length, List.length_replicate]
  have hdel : delete1 (insert1 a obj values)
      ((insertAdjusted a.length obj values.length).map (fun (p : Nat) => (p : Int))) false
      = deleteWithMask (insert1 a obj values)
          ((insertAdjusted a.length obj values.length).map (fun (p : Nat) => (p : Int))) := rfl
  rw [hdel]
  unfold deleteWithMask
  have hmcong : (List.range (insert1 a obj values).length).filter
        (fun t => (((insertAdjusted a.length obj values.length).map
            (fun (p : Nat) => (p : Int))).foldl
          (deleteMaskStep (insert1 a obj values).length)
          (List.replicate (insert1 a obj values).length true)).getD t false)
      = (List.range (a.length + obj.length)).filter
          (fun t => decide (t ∉ insertAdjusted a.length obj values.length)) := by
    rw [hOutLen]
    apply List.filter_congr
    intro t ht
    rw [List.mem_range] at ht
    rw [deleteFold_getD (a.length + obj.length) _ _ t
      (by rw [List.length_replicate]; exact ht) hPlt]
    rw [List.getD_eq_getElem _ false (by rw [List.length_replicate]; exact ht)]
    simp
  rw [hmcong]
  have hFnd : ((List.range (a.length + obj.length)).filter
      (fun t => decide (t ∉ insertAdjusted a.length obj values.length))).Nodup :=
    List.Nodup.filter _ (List.nodup_range _)
  have hFlen : ((List.range (a.length + obj.length)).filter
      (fun t => decide (t ∉ insertAdjusted a.length obj values.length))).length
        = a.length := by
    rw [filter_not_mem_length _ _ hPnd hPlt, hPlen]
    omega
  simp only [hout]
  apply scatterSetN_map_getD _ _ _ hFnd hFlen
  intro p hp
  rw [scatterSetN_length, List.length_replicate]
  have hmem := List.mem_filter.mp hp
  rw [List.mem_range] at hmem
  exact hmem.1

theorem delete_insert_roundtrip_witness :
    delete1 (insert1 [0, 1, 2, 3, 4] [4, 2, 5] [10, 11, 12])
      ((insertAdjusted 5 [4, 2, 5] 3).map (fun (p : Nat) => (p : Int))) false = [0, 1, 2, 3, 4] :=
  delete_insert_roundtrip [0, 1, 2, 3, 4] [4, 2, 5] [10, 11, 12]
    (by decide) (by decide) (by decide)

/-- C5 counterexample: with a single bin edge (zero bins) the scatter
target `len(edges) - 1 = 0` is the dropped leading slot, so the total
weight is lost even though the sample `5` lies within
`[edges[0], edges[-1]] = [5, 5]`: the counts sum to `0` while the
weights sum to `2`. -/
theorem histogram_weight_loss_counterexample :
    histogramCounts [5] [5] [2] = [] ∧ (histogramCounts [5] [5] [2]).sum = 0 ∧
      ([2] : List Int).sum = 2 :=
  ⟨by decide, by decide, by decide⟩
example : searchsorted [1, 2, 2, 3, 4, 5, 5] [2] Side.right Method.scan = [3] := by decide
example : searchsorted [1, 2, 2, 3, 4, 5, 5] [2] Side.left Method.sort = [1] := by decide
example : searchsorted [1, 2, 2, 3, 4, 5, 5] [2] Side.right Method.sort = [3] := by decide
example : searchsorted [1, 2, 2, 3, 4, 5, 5] [2] Side.left Method.compareAll = [1] := by decide
example : searchsorted [1, 2, 2, 3, 4, 5, 5] [0, 3, 8] Side.left Method.scan = [0, 3, 7] := by
  decide

/-! ## N-dimensional array model

Dense arrays are modelled by a static shape plus a value function on
multi-indices; the `lax` primitives consumed by the padding engine
(`slice_in_dim`, `concatenate`, `flip`, `lax.pad`) are modelled on this
representation. -/

structure NDArr where
  shape : List Nat
  val : List Nat → Int

def dimSize (x : NDArr) (i : Nat) : Nat := x.shape.getD i 0

def idxAt (idx : List Nat) (i : Nat) : Nat := idx.getD i 0

/-- An index is valid for a shape when it has one in-range coordinate per
axis. -/
def validIdx (sh idx : List Nat) : Bool :=
  (idx.length == sh.length) &&
    (List.range sh.length).all (fun i => idx.getD i 0 < sh.getD i 0)

/-- Extensional equality of arrays: same shape and same values at every
valid index. -/
def ndEq (u v : NDArr) : Prop :=
  u.shape = v.shape ∧ ∀ idx, validIdx v.shape idx = true → u.val idx = v.val idx

/-- A 1-D array from a list. -/
def ofList (l : List Int) : NDArr :=
  { shape := [l.length], val := fun idx => l.getD (idx.getD 0 0) 0 }

def sliceStart (n : Nat) (start : Int) : Nat :=
  (if start < 0 then start + (n : Int) else start).toNat

def sliceStop (n : Nat) (stop : Option Int) : Nat :=
  min (match stop with
    | none => (n : Int)
    | some v => if v < 0 then v + (n : Int) else v).toNat n

def sliceLen (n : Nat) (start : Int) (stop : Option Int) : Nat :=
  sliceStop n stop - sliceStart n start

/-- Model of `lax_slicing.slice_in_dim(x, start, stop, axis=i)` with unit
stride: negative `start`/`stop` wrap by the axis size and `stop = none`
means the axis size. -/
def sliceInDim (x : NDArr) (i : Nat) (start : Int) (stop : Option Int) : NDArr :=
  { shape := x.shape.set i (sliceLen (dimSize x i) start stop),
    val := fun idx => x.val (idx.set i (idxAt idx i + sliceStart (dimSize x i) start)) }

/-- Locate axis-`i` position `j` among the concatenated parts. -/
def concatVal (i : Nat) (parts : List NDArr) (idx : List Nat) (j : Nat) : Int :=
  match parts with
  | [] => 0
  | p :: ps => if j < dimSize p i then p.val (idx.set i j)
      else concatVal i ps idx (j - dimSize p i)

def concatShape (i : Nat) (parts : List NDArr) : List Nat :=
  (parts.headD { shape := [], val := fun _ => 0 }).shape.set i
    ((parts.map (fun p => dimSize p i)).sum)

/-- Model of `lax.concatenate(parts, dimension=i)`. -/
def concatenate (i : Nat) (parts : List NDArr) : NDArr :=
  { shape := concatShape i parts,
    val := fun idx => concatVal i parts idx (idxAt idx i) }

/-- Model of `flip(x, axis=i)`. -/
def flipAxis (x : NDArr) (i : Nat) : NDArr :=
  { shape := x.shape,
    val := fun idx => x.val (idx.set i (dimSize x i - 1 - idxAt idx i)) }

/-- Scalar-count `repeat(x, k, axis=i)` (fast path: broadcast plus
reshape, output axis position `j` reads input position `j / k`). -/
def repeatAxis (x : NDArr) (k : Nat) (i : Nat) : NDArr :=
  { shape := x.shape.set i (dimSize x i * k),
    val := fun idx => x.val (idx.set i (idxAt idx i / k)) }

/-- The padded shape: axis `i` grows by `before + after`. -/
def padShape (sh : List Nat) (w : List (Nat × Nat)) : List Nat :=
  (List.range sh.length).map
    (fun i => sh.getD i 0 + (w.getD i (0, 0)).1 + (w.getD i (0, 0)).2)

/-- Model of `lax.pad(x, c, [(lo, hi, 0), ...])` (no interior padding,
nonnegative widths). -/
def laxPad (x : NDArr) (c : Int) (w : List (Nat × Nat)) : NDArr :=
  { shape := padShape x.shape w,
    val := fun idx =>
      if (List.range x.shape.length).all
          (fun i => decide ((w.getD i (0, 0)).1 ≤ idxAt idx i) &&
            decide (idxAt idx i < (w.getD i (0, 0)).1 + dimSize x i)) then
        x.val ((List.range x.shape.length).map (fun i => idxAt idx i - (w.getD i (0, 0)).1))
      else c }

/-! ## Padding engine

Source: `_check_no_padding`, `_pad_constant`, `_pad_wrap`,
`_pad_symmetric_or_reflect`, `_pad_edge`, `_pad_linear_ramp`,
`_pad_stats`, `_pad_empty` and the `_pad` dispatcher (`lax_numpy.py`),
over normalized `(before, after)` width pairs, a scalar
`constant_values`, the default `stat_length = None`, and normalized
`end_values` pairs. -/

/-- `_check_no_padding`: nonzero widths on an empty axis are rejected. -/
def checkNoPadding (wi : Nat × Nat) : Except String Unit :=
  if wi.1 > 0 ∨ wi.2 > 0 then Except.error "Cannot apply padding to empty axis"
  else pure ()

/-- Per-axis left-to-right loop shared by the non-constant pad modes
(`for i in range(ndim)`); the array shapes grow but `ndim` is fixed. -/
def padAxes (step : NDArr → Nat → Except String NDArr) (x : NDArr) : Except String NDArr :=
  (List.range x.shape.length).foldlM step x

/-- One axis of `_pad_wrap`: whole copies of the array plus a head/tail
remainder slice, concatenated circularly. -/
def padWrapStep (w : List (Nat × Nat)) (x : NDArr) (i : Nat) : Except String NDArr :=
  if dimSize x i = 0 then do
    checkNoPadding (w.getD i (0, 0))
    pure x
  else
    pure (concatenate i
      ((if (w.getD i (0, 0)).1 % dimSize x i > 0 then
          [sliceInDim x i ((dimSize x i : Int) - ((w.getD i (0, 0)).1 % dimSize x i : Nat))
            (some (dimSize x i : Int))]
        else []) ++
       List.replicate ((w.getD i (0, 0)).1 / dimSize x i + (w.getD i (0, 0)).2 / dimSize x i + 1) x ++
       (if (w.getD i (0, 0)).2 % dimSize x i > 0 then
          [sliceInDim x i 0 (some (((w.getD i (0, 0)).2 % dimSize x i : Nat) : Int))]
        else [])))

/-- One axis of `_pad_edge`: repeat the first and last slice. -/
def padEdgeStep (w : List (Nat × Nat)) (x : NDArr) (i : Nat) : Except String NDArr :=
  if dimSize x i = 0 then do
    checkNoPadding (w.getD i (0, 0))
    pure x
  else
    pure (concatenate i
      [repeatAxis (sliceInDim x i 0 (some 1)) (w.getD i (0, 0)).1 i,
       x,
       repeatAxis (sliceInDim x i ((dimSize x i : Int) - 1) (some (dimSize x i : Int)))
         (w.getD i (0, 0)).2 i])

/-- The `odd` reflect transform `2 * edge - x`, with the size-1 `edge`
slice broadcast along axis `i`. -/
def oddReflect (edge x : NDArr) (i : Nat) : NDArr :=
  { shape := x.shape, val := fun idx => 2 * edge.val (idx.set i 0) - x.val idx }

/-- The chunked `while padding > 0` loop of `build_padding` inside
`_pad_symmetric_or_reflect`.  `rm` is `mode == 'reflect'`, `rt` is
`reflect_type == 'odd'`; `axisSize` is the axis size captured before the
loop.  The fuel argument only drives structural recursion: each
iteration consumes `curr ≥ 1` of the remaining padding, so fuel equal to
the initial padding makes this the exact while loop (the `axisSize = 0`
guard is unreachable, the caller skips empty axes). -/
def buildPadLoop (rm rt : Bool) (i axisSize : Nat) (before : Bool) :
    Nat → NDArr → NDArr → Nat → NDArr
  | 0, arr, _, _ => arr
  | fuel + 1, arr, edge, padding =>
    if padding = 0 then arr
    else if axisSize = 0 then arr
    else
      let offset := if rm ∧ axisSize > 1 then 1 else 0
      let curr := min padding (axisSize - offset)
      let xs := if before then
          sliceInDim arr i (offset : Int) (some ((offset + curr : Nat) : Int))
        else
          sliceInDim arr i (-((curr + offset : Nat) : Int))
            (if ¬rm ∨ axisSize = 1 then none else some (-1))
      let xf := flipAxis xs i
      let xo := if rt then oddReflect edge xf i else xf
      let edge2 := if rt ∧ axisSize > 1 then
          (if before then sliceInDim xo i 0 (some 1) else sliceInDim xo i (-1) none)
        else edge
      let arr2 := if before then concatenate i [xo, arr] else concatenate i [arr, xo]
      buildPadLoop rm rt i axisSize before fuel arr2 edge2 (padding - curr)

/-- One reflected chunk of `build_padding` on the `before` side: the
slice `[offset : offset+curr]`, flipped, with the odd transform applied
when `reflect_type == 'odd'` (names the loop-body term of
`buildPadLoop` for reasoning). -/
def bchunk (rt : Bool) (i : Nat) (arr edge : NDArr) (o curr : Nat) : NDArr :=
  let xs := sliceInDim arr i (o : Int) (some ((o + curr : Nat) : Int))
  let xf := flipAxis xs i
  if rt then oddReflect edge xf i else xf

/-- One reflected chunk of `build_padding` on the `after` side. -/
def achunk (rm rt : Bool) (i axisSize : Nat) (arr edge : NDArr) (o curr : Nat) : NDArr :=
  let xs := sliceInDim arr i (-((curr + o : Nat) : Int))
    (if ¬rm ∨ axisSize = 1 then none else some (-1))
  let xf := flipAxis xs i
  if rt then oddReflect edge xf i else xf

/-- `build_padding(array, padding, before)`: capture the edge slice and
run the chunked loop. -/
def buildPadding (rm rt : Bool) (i axisSize : Nat) (arr : NDArr) (padding : Nat)
    (before : Bool) : NDArr :=
  buildPadLoop rm rt i axisSize before padding arr
    (if before then sliceInDim arr i 0 (some 1) else sliceInDim arr i (-1) none)
    padding

/-- One axis of `_pad_symmetric_or_reflect`: before-padding then
after-padding, both chunked against the original axis size. -/
def padReflectStep (rm rt : Bool) (w : List (Nat × Nat)) (x : NDArr) (i : Nat) :
    Except String NDArr :=
  if dimSize x i = 0 then do
    checkNoPadding (w.getD i (0, 0))
    pure x
  else
    pure (buildPadding rm rt i (dimSize x i)
      (buildPadding rm rt i (dimSize x i) x (w.getD i (0, 0)).1 true)
      (w.getD i (0, 0)).2 false)

/-- Modelled from the spec: the external
`array_creation.linspace(start, stop, num, endpoint=False, axis=i)` ramp
used by `linear_ramp` (`stopArr` is the edge slice, of size 1 along axis
`i`).  The shape semantics (the axis gets size `num`) are exact; the
floating-point values are modelled by integer interpolation, and no
claim depends on them. -/
def linspaceAxis (startV : Int) (stopArr : NDArr) (num : Nat) (i : Nat) : NDArr :=
  { shape := stopArr.shape.set i num,
    val := fun idx =>
      startV + (stopArr.val (idx.set i 0) - startV) * (idxAt idx i : Int) / (max num 1) }

/-- One axis of `_pad_linear_ramp`: ramps from the end values to the two
edges (the after ramp is flipped). -/
def padLinearRampStep (endv : List (Int × Int)) (w : List (Nat × Nat)) (x : NDArr)
    (i : Nat) : Except String NDArr :=
  pure (concatenate i
    [linspaceAxis (endv.getD i (0, 0)).1 (sliceInDim x i 0 (some 1)) (w.getD i (0, 0)).1 i,
     x,
     flipAxis (linspaceAxis (endv.getD i (0, 0)).2 (sliceInDim x i (-1) none)
       (w.getD i (0, 0)).2 i) i])

inductive StatKind where
  | maximum
  | minimum
  | mean
  | median
deriving DecidableEq, Repr

/-- Modelled from the spec: the external reductions (`reductions.amax`,
`amin`, `mean`, `median`) used by the statistic pad modes, as total
functions on the integer value model (the source computes inexact
statistics and rounds for integer dtypes; a reduction over an empty axis
— an eager error for `amax`/`amin` — returns 0 here).  No claim depends
on these values. -/
def statReduce : StatKind → List Int → Int
  | .maximum, vals => vals.foldl max (vals.headD 0)
  | .minimum, vals => vals.foldl min (vals.headD 0)
  | .mean, vals => vals.sum / (max vals.length 1)
  | .median, vals =>
      ((vals.mergeSort (fun x y => decide (x ≤ y))).getD ((vals.length - 1) / 2) 0 +
        (vals.mergeSort (fun x y => decide (x ≤ y))).getD (vals.length / 2) 0) / 2

/-- `stat_func(array, axis=i, keepdims=True)` with the default
`stat_length = None` (the statistic of the whole axis). -/
def reduceAxis (f : List Int → Int) (x : NDArr) (i : Nat) : NDArr :=
  { shape := x.shape.set i 1,
    val := fun idx => f ((List.range (dimSize x i)).map (fun j => x.val (idx.set i j))) }

/-- One axis of `_pad_stats`: repeat the keepdims statistic on both
sides. -/
def padStatsStep (k : StatKind) (w : List (Nat × Nat)) (x : NDArr) (i : Nat) :
    Except String NDArr :=
  pure (concatenate i
    [repeatAxis (reduceAxis (statReduce k) x i) (w.getD i (0, 0)).1 i,
     x,
     repeatAxis (reduceAxis (statReduce k) x i) (w.getD i (0, 0)).2 i])

/-- `empty_like(..., shape=...)` blocks of `_pad_empty`
(`jax.numpy.empty` is zero-backed). -/
def emptyLike (x : NDArr) (i k : Nat) : NDArr :=
  { shape := x.shape.set i k, val := fun _ => 0 }

/-- One axis of `_pad_empty`. -/
def padEmptyStep (w : List (Nat × Nat)) (x : NDArr) (i : Nat) : Except String NDArr :=
  pure (concatenate i
    [emptyLike x i (w.getD i (0, 0)).1, x, emptyLike x i (w.getD i (0, 0)).2])

inductive PadMode where
  | constant
  | edge
  | wrap
  | reflect
  | symmetric
  | linearRamp
  | maximum
  | minimum
  | mean
  | median
  | empty
deriving DecidableEq, Repr

/-- The `_pad` dispatcher on normalized widths: a 0-d array is returned
unchanged, `constant` is a single `lax.pad`, every other mode runs its
per-axis loop.  `odd` is `reflect_type == 'odd'`. -/
def jnpPad (x : NDArr) (w : List (Nat × Nat)) (mode : PadMode) (c : Int)
    (endv : List (Int × Int)) (odd : Bool) : Except String NDArr :=
  if x.shape.length = 0 then pure x
  else match mode with
    | .constant => pure (laxPad x c w)
    | .edge => padAxes (padEdgeStep w) x
    | .wrap => padAxes (padWrapStep w) x
    | .reflect => padAxes (padReflectStep true odd w) x
    | .symmetric => padAxes (padReflectStep false odd w) x
    | .linearRamp => padAxes (padLinearRampStep endv w) x
    | .maximum => padAxes (padStatsStep .maximum w) x
    | .minimum => padAxes (padStatsStep .minimum w) x
    | .mean => padAxes (padStatsStep .mean w) x
    | .median => padAxes (padStatsStep .median w) x
    | .empty => padAxes (padEmptyStep w) x

/-- The basic slice `out[w_0.before : w_0.before + sh_0, ...]`: the
region of the padded array that held the original array of shape
`sh`. -/
def sliceRegion (out : NDArr) (w : List (Nat × Nat)) (sh : List Nat) : NDArr :=
  { shape := sh,
    val := fun idx => out.val ((List.range sh.length).map
      (fun i => idxAt idx i + (w.getD i (0, 0)).1)) }

/-- `min(a.shape)` (a nonempty tuple at every call site). -/
def listMin (l : List Nat) : Nat :=
  match l with
  | [] => 0
  | x :: xs => xs.foldl min x

/-- `np.tile(arr, k)` for a 1-D list: `k` concatenated copies. -/
def tileList : Nat → List Int → List Int
  | 0, _ => []
  | k + 1, l => l ++ tileList k l

/-- `_tile_to_size(arr, size)`: tile up when too short
(`cdiv size arr.size` copies, i.e. `int(np.ceil(size / arr.size))`),
then truncate
to `size` when too long. -/
def tileToSize (l : List Int) (size : Nat) : List Int :=
  let l2 := if l.length < size then tileList (cdiv size l.length) l else l
  if size < l2.length then l2.take size else l2

/-- Row-major enumeration of all valid index tuples of a shape. -/
def allIndices : List Nat → List (List Nat)
  | [] => [[]]
  | n :: rest => ((List.range n).map (fun j => (allIndices rest).map (fun t => j :: t))).flatten

/-- `val.ravel()`: the flattened (row-major) element list. -/
def ravelList (x : NDArr) : List Int :=
  (allIndices x.shape).map x.val

/-- The value scattered at diagonal position `j`:
`val if val.ndim == 0 else _tile_to_size(val.ravel(), n)[j]`. -/
def fillVal (val : NDArr) (n j : Nat) : Int :=
  if val.shape.length = 0 then val.val []
  else (tileToSize (ravelList val) n).getD j 0

/-- `a.at[diag_indices(n, a.ndim)].set(...)`: every constant index
tuple `(j, ..., j)` with `j < n` receives the fill value for `j`. -/
def setDiag (a val : NDArr) (n : Nat) : NDArr :=
  { shape := a.shape,
    val := fun idx =>
      if (idx.all (fun t => decide (t = idxAt idx 0))) && decide (idxAt idx 0 < n) then
        fillVal val n (idxAt idx 0)
      else a.val idx }

/-- `fill_diagonal(a, val, wrap, inplace=...)`: the two
`NotImplementedError` guards run first, then the dimension checks, then
the diagonal scatter with `n = min(a.shape)`. -/
def fillDiagonal (a val : NDArr) (wrap inplace : Bool) : Except String NDArr :=
  if inplace then
    Except.error "JAX arrays are immutable, must use inplace=False"
  else if wrap then
    Except.error "wrap=True is not implemented, must use wrap=False"
  else if a.shape.length < 2 then
    Except.error "array must be at least 2-d"
  else if a.shape.length > 2 ∧
      ¬ ((a.shape.drop 1).all (fun m => decide (m = a.shape.headD 0))) = true then
    Except.error "All dimensions of input must be of equal length"
  else
    Except.ok (setDiag a val (listMin a.shape))

example :
    (fillDiagonal { shape := [4, 4], val := fun _ => 0 } (ofList [3, 4]) false false).map
      (fun r => (List.range 4).map (fun j => r.val [j, j])) = Except.ok [3, 4, 3, 4] := rfl

example :
    (fillDiagonal { shape := [3, 3], val := fun _ => 0 } (ofList [1, 2, 3]) false false).map
      (fun r => [r.val [0, 0], r.val [0, 1], r.val [1, 1], r.val [2, 2]])
      = Except.ok [1, 0, 2, 3] := rfl

example :
    (fillDiagonal { shape := [3, 3], val := fun _ => 0 } (ofList [1, 2, 3]) false true).isOk
      = false := rfl

example :
    (fillDiagonal { shape := [2, 3, 3], val := fun _ => 0 } (ofList [1]) false false).isOk
      = false := rfl

example :
    (jnpPad (ofList [1, 2, 3]) [(2, 2)] PadMode.reflect 0 [] false).map
      (fun o => (List.range 7).map (fun t => o.val [t])) = Except.ok [3, 2, 1, 2, 3, 2, 1] := rfl

example :
    (jnpPad (ofList [10, 20, 30, 40]) [(2, 2)] PadMode.symmetric 0 [] false).map
      (fun o => (List.range 8).map (fun t => o.val [t]))
      = Except.ok [20, 10, 10, 20, 30, 40, 40, 30] := rfl

example :
    (jnpPad (ofList [10, 20, 30, 40]) [(2, 2)] PadMode.edge 0 [] false).map
      (fun o => (List.range 8).map (fun t => o.val [t]))
      = Except.ok [10, 10, 10, 20, 30, 40, 40, 40] := rfl

example :
    (jnpPad (ofList [10, 20, 30]) [(2, 3)] PadMode.wrap 0 [] false).map
      (fun o => (List.range 8).map (fun t => o.val [t]))
      = Except.ok [20, 30, 10, 20, 30, 10, 20, 30] := rfl

example :
    (jnpPad (ofList [10, 20, 30, 40]) [(2, 2)] PadMode.constant 99 [] false).map
      (fun o => (List.range 8).map (fun t => o.val [t]))
      = Except.ok [99, 99, 10, 20, 30, 40, 99, 99] := rfl

example :
    (jnpPad (ofList []) [(1, 1)] PadMode.edge 0 [] false).map (fun o => o.shape)
      = Except.error "Cannot apply padding to empty axis" := rfl

/-! ### Shape and interior lemmas for the padding engine -/

theorem set_getD_self {α : Type} (l : List α) (i : Nat) (d : α) :
    l.set i (l.getD i d) = l := by
  by_cases h : i < l.length
  · apply List.ext_getElem
    · rw [List.length_set]
    · intro j h1 h2
      rw [List.getElem_set]
      split
      · next heq =>
        subst heq
        rw [List.getD_eq_getElem l d h2]
      · rfl
  · exact List.set_eq_of_length_le (by omega)

theorem validIdx_length {sh idx : List Nat} (h : validIdx sh idx = true) :
    idx.length = sh.length := by
  unfold validIdx at h
  rw [Bool.and_eq_true] at h
  exact Nat.beq_eq ▸ (by simpa using h.1)

theorem validIdx_bound {sh idx : List Nat} (h : validIdx sh idx = true)
    (i : Nat) (hi : i < sh.length) : idx.getD i 0 < sh.getD i 0 := by
  unfold validIdx at h
  rw [Bool.and_eq_true, List.all_eq_true] at h
  have := h.2 i (List.mem_range.mpr hi)
  simpa using this

theorem validIdx_intro {sh idx : List Nat} (hl : idx.length = sh.length)
    (hb : ∀ i, i < sh.length → idx.getD i 0 < sh.getD i 0) :
    validIdx sh idx = true := by
  unfold validIdx
  rw [Bool.and_eq_true, List.all_eq_true]
  constructor
  · simpa using hl
  · intro i hi
    rw [List.mem_range] at hi
    simpa using hb i hi

theorem validIdx_shift (sh idx : List Nat) (i lo hi : Nat)
    (hv : validIdx sh idx = true) (hilt : i < sh.length) :
    validIdx (sh.set i (sh.getD i 0 + lo + hi)) (idx.set i (idxAt idx i + lo)) = true := by
  have hlen := validIdx_length hv
  apply validIdx_intro
  · rw [List.length_set, List.length_set, hlen]
  · intro j hj
    rw [List.length_set] at hj
    by_cases hji : j = i
    · subst hji
      rw [getD_set_self sh j _ 0 hj,
        getD_set_self idx j (idxAt idx j + lo) 0 (by omega)]
      have := validIdx_bound hv j hj
      unfold idxAt
      omega
    · rw [getD_set_ne sh i j _ 0 (fun h => hji h.symm),
        getD_set_ne idx i j _ 0 (fun h => hji h.symm)]
      exact validIdx_bound hv j hj

/-- Contract of one per-axis padding step: on success the axis grows by
`lo i + hi i` and interior values shift by `lo i` along axis `i`. -/
def StepOk (step : NDArr → Nat → Except String NDArr) (lo hi : Nat → Nat) : Prop :=
  ∀ (arr : NDArr) (i : Nat) (b : NDArr), i < arr.shape.length → step arr i = Except.ok b →
    b.shape = arr.shape.set i (dimSize arr i + lo i + hi i) ∧
    ∀ idx, validIdx arr.shape idx = true →
      b.val (idx.set i (idxAt idx i + lo i)) = arr.val idx

theorem foldlM_pad (step : NDArr → Nat → Except String NDArr) (lo hi : Nat → Nat)
    (hstep : StepOk step lo hi) :
    ∀ (l : List Nat) (arr out : NDArr), (∀ j ∈ l, j < arr.shape.length) →
    l.foldlM step arr = Except.ok out →
    out.shape = l.foldl (fun sh i => sh.set i (sh.getD i 0 + lo i + hi i)) arr.shape ∧
    ∀ idx, validIdx arr.shape idx = true →
      out.val (l.foldl (fun jdx i => jdx.set i (idxAt jdx i + lo i)) idx) = arr.val idx := by
  intro l
  induction l with
  | nil =>
    intro arr out _ hfold
    rw [List.foldlM_nil] at hfold
    have hae : arr = out := by
      have := hfold
      simp only [pure, Except.pure] at this
      exact (Except.ok.injEq _ _).mp this
    subst hae
    exact ⟨rfl, fun idx _ => rfl⟩
  | cons i t ih =>
    intro arr out hmem hfold
    rw [List.foldlM_cons] at hfold
    match hstepeq : step arr i with
    | .error e =>
      rw [hstepeq] at hfold
      simp only [bind, Except.bind] at hfold
      exact absurd hfold (by simp)
    | .ok b =>
      rw [hstepeq] at hfold
      simp only [bind, Except.bind] at hfold
      have hile : i < arr.shape.length := hmem i (List.mem_cons_self i t)
      obtain ⟨hbshape, hbval⟩ := hstep arr i b hile hstepeq
      have hblen : b.shape.length = arr.shape.length := by
        rw [hbshape, List.length_set]
      have ihb := ih b out (fun j hj => by
        rw [hblen]
        exact hmem j (List.mem_cons_of_mem i hj)) hfold
      constructor
      · rw [List.foldl_cons]
        rw [ihb.1, hbshape]
        rfl
      · intro idx hv
        rw [List.foldl_cons]
        have hvb : validIdx b.shape (idx.set i (idxAt idx i + lo i)) = true := by
          rw [hbshape]
          exact validIdx_shift arr.shape idx i (lo i) (hi i) hv hile
        have := ihb.2 (idx.set i (idxAt idx i + lo i)) hvb
        rw [this]
        exact hbval idx hv

theorem foldl_set_length (g : Nat → Nat → Nat) :
    ∀ (l : List Nat) (s : List Nat),
    (l.foldl (fun s i => s.set i (g i (s.getD i 0))) s).length = s.length := by
  intro l
  induction l with
  | nil => intro s; rfl
  | cons i t ih =>
    intro s
    rw [List.foldl_cons, ih, List.length_set]

theorem foldl_set_getD (g : Nat → Nat → Nat) :
    ∀ (l : List Nat) (s : List Nat), l.Nodup → (∀ i ∈ l, i < s.length) →
    ∀ j, (l.foldl (fun s i => s.set i (g i (s.getD i 0))) s).getD j 0
      = if j ∈ l then g j (s.getD j 0) else s.getD j 0 := by
  intro l
  induction l with
  | nil => intro s _ _ j; simp
  | cons i t ih =>
    intro s hnd hmem j
    rw [List.nodup_cons] at hnd
    rw [List.foldl_cons]
    have hi : i < s.length := hmem i (List.mem_cons_self i t)
    rw [ih (s.set i (g i (s.getD i 0))) hnd.2
      (fun r hr => by rw [List.length_set]; exact hmem r (List.mem_cons_of_mem i hr)) j]
    by_cases hjt : j ∈ t
    · have hji : j ≠ i := fun h => hnd.1 (h ▸ hjt)
      rw [if_pos hjt, if_pos (List.mem_cons_of_mem i hjt)]
      rw [getD_set_ne s i j _ 0 (fun h => hji h.symm)]
    · rw [if_neg hjt]
      by_cases hji : j = i
      · subst hji
        rw [getD_set_self s j _ 0 hi, if_pos (List.mem_cons_self j t)]
      · rw [getD_set_ne s i j _ 0 (fun h => hji h.symm),
          if_neg (by
            intro hmem2
            rcases List.mem_cons.mp hmem2 with h | h
            · exact hji h
            · exact hjt h)]

theorem sliceStart_nat (n s : Nat) : sliceStart n (s : Int) = s := by
  unfold sliceStart
  rw [if_neg (by omega)]
  omega

theorem sliceLen_zero_to (n r : Nat) (hr : r ≤ n) : sliceLen n 0 (some (r : Int)) = r := by
  unfold sliceLen sliceStop sliceStart
  simp only []
  rw [if_neg (by omega), if_neg (by omega)]
  omega

theorem sliceLen_last_one (n : Nat) (hn : 1 ≤ n) :
    sliceLen n ((n : Int) - 1) (some (n : Int)) = 1 := by
  unfold sliceLen sliceStop sliceStart
  simp only []
  rw [if_neg (by omega), if_neg (by omega)]
  omega

theorem sliceStart_sub (n r : Nat) (hr1 : 1 ≤ r) (hr2 : r ≤ n) :
    sliceStart n ((n : Int) - (r : Int)) = n - r := by
  unfold sliceStart
  rw [if_neg (by omega)]
  omega

theorem sliceLen_tail (n r : Nat) (hr : r ≤ n) :
    sliceLen n ((n : Int) - (r : Int)) (some (n : Int)) = r := by
  unfold sliceLen sliceStop sliceStart
  simp only []
  rw [if_neg (by omega)]
  split <;> omega

theorem sliceLen_neg_one_none (n : Nat) (hn : 1 ≤ n) : sliceLen n (-1) none = 1 := by
  unfold sliceLen sliceStop sliceStart
  simp only []
  rw [if_pos (by omega)]
  omega

theorem sliceStart_neg_one (n : Nat) (hn : 1 ≤ n) : sliceStart n (-1) = n - 1 := by
  unfold sliceStart
  rw [if_pos (by omega)]
  omega

theorem sliceLen_off (n off c : Nat) (h : off + c ≤ n) :
    sliceLen n ((off : Nat) : Int) (some ((off + c : Nat) : Int)) = c := by
  unfold sliceLen sliceStop sliceStart
  simp only []
  rw [if_neg (by omega), if_neg (by omega)]
  omega

theorem sliceLen_negstart_none (n c : Nat) (h1 : 1 ≤ c) (h2 : c ≤ n) :
    sliceLen n (-((c : Nat) : Int)) none = c := by
  unfold sliceLen sliceStop sliceStart
  simp only []
  rw [if_pos (by omega)]
  omega

theorem sliceStart_negstart (n c : Nat) (h1 : 1 ≤ c) (h2 : c ≤ n) :
    sliceStart n (-((c : Nat) : Int)) = n - c := by
  unfold sliceStart
  rw [if_pos (by omega)]
  omega

theorem sliceLen_negstart_neg_one (n c : Nat) (h1 : 1 ≤ c) (h2 : c ≤ n) :
    sliceLen n (-((c : Nat) : Int)) (some (-1)) = c - 1 := by
  unfold sliceLen sliceStop sliceStart
  simp only []
  rw [if_pos (by omega), if_pos (by omega)]
  omega

theorem concat3_shape (i : Nat) (bef x aft : NDArr) (hi2 : i < x.shape.length)
    (db da : Nat) (hb : bef.shape = x.shape.set i db) (ha : aft.shape = x.shape.set i da) :
    (concatenate i [bef, x, aft]).shape = x.shape.set i (db + dimSize x i + da) := by
  show concatShape i [bef, x, aft] = x.shape.set i (db + dimSize x i + da)
  unfold concatShape
  have hdb : dimSize bef i = db := by
    unfold dimSize
    rw [hb]
    exact getD_set_self _ i db 0 hi2
  have hda : dimSize aft i = da := by
    unfold dimSize
    rw [ha]
    exact getD_set_self _ i da 0 hi2
  simp only [List.headD, List.map, List.sum_cons, List.sum_nil]
  rw [hdb, hda, hb, List.set_set]
  congr 1
  omega

theorem concat3_val_mid (i : Nat) (bef x aft : NDArr) (idx : List Nat) (j : Nat)
    (hj : j < dimSize x i) :
    concatVal i [bef, x, aft] idx (dimSize bef i + j) = x.val (idx.set i j) := by
  simp only [concatVal]
  rw [if_neg (by omega)]
  have h1 : dimSize bef i + j - dimSize bef i = j := by omega
  rw [h1, if_pos hj]

/-- Shared shape/interior argument for the three-part
`[before, array, after]` concatenation used by the edge, linear-ramp,
statistic and empty modes. -/
theorem threePart_ok (i : Nat) (x bef aft : NDArr) (lo hi : Nat)
    (hi2 : i < x.shape.length)
    (hb : bef.shape = x.shape.set i lo) (ha : aft.shape = x.shape.set i hi) :
    (concatenate i [bef, x, aft]).shape = x.shape.set i (dimSize x i + lo + hi) ∧
    ∀ idx, validIdx x.shape idx = true →
      (concatenate i [bef, x, aft]).val (idx.set i (idxAt idx i + lo)) = x.val idx := by
  have hdb : dimSize bef i = lo := by
    unfold dimSize
    rw [hb]
    exact getD_set_self _ i lo 0 hi2
  constructor
  · rw [concat3_shape i bef x aft hi2 lo hi hb ha]
    congr 1
    omega
  · intro idx hv
    have hidxlen : i < idx.length := by
      rw [validIdx_length hv]
      exact hi2
    show concatVal i [bef, x, aft] (idx.set i (idxAt idx i + lo))
      (idxAt (idx.set i (idxAt idx i + lo)) i) = x.val idx
    have hat : idxAt (idx.set i (idxAt idx i + lo)) i = idxAt idx i + lo := by
      exact getD_set_self idx i _ 0 hidxlen
    rw [hat]
    have hlt : idxAt idx i < dimSize x i := validIdx_bound hv i hi2
    have hmid := concat3_val_mid i bef x aft (idx.set i (idxAt idx i + lo)) (idxAt idx i) hlt
    rw [hdb] at hmid
    have harith : idxAt idx i + lo = lo + idxAt idx i := by omega
    rw [← harith] at hmid
    rw [hmid, List.set_set]
    show x.val (idx.set i (idx.getD i 0)) = x.val idx
    rw [set_getD_self idx i 0]

/-- The `do checkNoPadding; pure arr` branch succeeds only with zero
widths, returning the array unchanged. -/
theorem zeroAxis_ok (wi : Nat × Nat) (arr b : NDArr)
    (h : (do checkNoPadding wi; pure arr : Except String NDArr) = Except.ok b) :
    wi.1 = 0 ∧ wi.2 = 0 ∧ b = arr := by
  unfold checkNoPadding at h
  by_cases hw : wi.1 > 0 ∨ wi.2 > 0
  · rw [if_pos hw] at h
    simp only [bind, Except.bind] at h
    exact absurd h (by simp)
  · rw [if_neg hw] at h
    simp only [bind, Except.bind, pure, Except.pure] at h
    refine ⟨by omega, by omega, ((Except.ok.injEq _ _).mp h).symm⟩

/-- StepOk for a zero-size axis with zero widths: the array is unchanged
and the contract holds trivially. -/
theorem zeroAxis_stepOk (arr : NDArr) (i : Nat) (hz : dimSize arr i = 0) :
    arr.shape = arr.shape.set i (dimSize arr i + 0 + 0) ∧
    ∀ idx, validIdx arr.shape idx = true →
      arr.val (idx.set i (idxAt idx i + 0)) = arr.val idx := by
  constructor
  · have h0 : dimSize arr i + 0 + 0 = arr.shape.getD i 0 := by
      unfold dimSize at hz ⊢
      omega
    rw [h0]
    exact (set_getD_self arr.shape i 0).symm
  · intro idx _
    rw [show idxAt idx i + 0 = idx.getD i 0 from rfl]
    rw [set_getD_self idx i 0]

theorem sliceLen_zero_one (n : Nat) (hn : 1 ≤ n) : sliceLen n 0 (some 1) = 1 := by
  unfold sliceLen sliceStop sliceStart
  simp only []
  rw [if_neg (by omega), if_neg (by omega)]
  omega

theorem pureOk {X b : NDArr} (h : (pure X : Except String NDArr) = Except.ok b) : X = b := by
  simpa [pure, Except.pure] using h

theorem padEdgeStep_ok (w : List (Nat × Nat)) :
    StepOk (padEdgeStep w) (fun i => (w.getD i (0, 0)).1) (fun i => (w.getD i (0, 0)).2) := by
  intro arr i b hi hstep
  unfold padEdgeStep at hstep
  by_cases hz : dimSize arr i = 0
  · rw [if_pos hz] at hstep
    obtain ⟨h1, h2, h3⟩ := zeroAxis_ok _ _ _ hstep
    rw [h3]
    simp only [h1, h2]
    exact zeroAxis_stepOk arr i hz
  · rw [if_neg hz] at hstep
    have hb := pureOk hstep
    subst hb
    have hslice1 : dimSize (sliceInDim arr i 0 (some 1)) i = 1 := by
      show (arr.shape.set i (sliceLen (dimSize arr i) 0 (some 1))).getD i 0 = 1
      rw [getD_set_self _ i _ 0 hi]
      exact sliceLen_zero_one (dimSize arr i) (by omega)
    have hslice2 : dimSize (sliceInDim arr i ((dimSize arr i : Int) - 1)
        (some (dimSize arr i : Int))) i = 1 := by
      show (arr.shape.set i (sliceLen (dimSize arr i) ((dimSize arr i : Int) - 1)
        (some (dimSize arr i : Int)))).getD i 0 = 1
      rw [getD_set_self _ i _ 0 hi]
      exact sliceLen_last_one (dimSize arr i) (by omega)
    have hbef : (repeatAxis (sliceInDim arr i 0 (some 1)) ((w.getD i (0, 0)).1) i).shape
        = arr.shape.set i ((w.getD i (0, 0)).1) := by
      show ((sliceInDim arr i 0 (some 1)).shape.set i
        (dimSize (sliceInDim arr i 0 (some 1)) i * (w.getD i (0, 0)).1)) = _
      rw [hslice1]
      show (arr.shape.set i (sliceLen (dimSize arr i) 0 (some 1))).set i
        (1 * (w.getD i (0, 0)).1) = _
      rw [List.set_set, one_mul]
    have haft : (repeatAxis (sliceInDim arr i ((dimSize arr i : Int) - 1)
        (some (dimSize arr i : Int))) ((w.getD i (0, 0)).2) i).shape
        = arr.shape.set i ((w.getD i (0, 0)).2) := by
      show ((sliceInDim arr i ((dimSize arr i : Int) - 1)
        (some (dimSize arr i : Int))).shape.set i
        (dimSize (sliceInDim arr i ((dimSize arr i : Int) - 1)
          (some (dimSize arr i : Int))) i * (w.getD i (0, 0)).2)) = _
      rw [hslice2]
      show (arr.shape.set i (sliceLen (dimSize arr i) ((dimSize arr i : Int) - 1)
        (some (dimSize arr i : Int)))).set i (1 * (w.getD i (0, 0)).2) = _
      rw [List.set_set, one_mul]
    exact threePart_ok i arr _ _ _ _ hi hbef haft

theorem padStatsStep_ok (k : StatKind) (w : List (Nat × Nat)) :
    StepOk (padStatsStep k w) (fun i => (w.getD i (0, 0)).1) (fun i => (w.getD i (0, 0)).2) := by
  intro arr i b hi hstep
  have hb := pureOk hstep
  subst hb
  have hred : dimSize (reduceAxis (statReduce k) arr i) i = 1 := by
    show (arr.shape.set i 1).getD i 0 = 1
    exact getD_set_self arr.shape i 1 0 hi
  have hbef : (repeatAxis (reduceAxis (statReduce k) arr i) ((w.getD i (0, 0)).1) i).shape
      = arr.shape.set i ((w.getD i (0, 0)).1) := by
    show ((reduceAxis (statReduce k) arr i).shape.set i
      (dimSize (reduceAxis (statReduce k) arr i) i * (w.getD i (0, 0)).1)) = _
    rw [hred]
    show (arr.shape.set i 1).set i (1 * (w.getD i (0, 0)).1) = _
    rw [List.set_set, one_mul]
  have haft : (repeatAxis (reduceAxis (statReduce k) arr i) ((w.getD i (0, 0)).2) i).shape
      = arr.shape.set i ((w.getD i (0, 0)).2) := by
    show ((reduceAxis (statReduce k) arr i).shape.set i
      (dimSize (reduceAxis (statReduce k) arr i) i * (w.getD i (0, 0)).2)) = _
    rw [hred]
    show (arr.shape.set i 1).set i (1 * (w.getD i (0, 0)).2) = _
    rw [List.set_set, one_mul]
  exact threePart_ok i arr _ _ _ _ hi hbef haft

theorem padEmptyStep_ok (w : List (Nat × Nat)) :
    StepOk (padEmptyStep w) (fun i => (w.getD i (0, 0)).1) (fun i => (w.getD i (0, 0)).2) := by
  intro arr i b hi hstep
  have hb := pureOk hstep
  subst hb
  exact threePart_ok i arr _ _ _ _ hi rfl rfl

theorem padLinearRampStep_ok (endv : List (Int × Int)) (w : List (Nat × Nat)) :
    StepOk (padLinearRampStep endv w)
      (fun i => (w.getD i (0, 0)).1) (fun i => (w.getD i (0, 0)).2) := by
  intro arr i b hi hstep
  have hb := pureOk hstep
  subst hb
  have hbef : (linspaceAxis ((endv.getD i (0, 0)).1) (sliceInDim arr i 0 (some 1))
      ((w.getD i (0, 0)).1) i).shape = arr.shape.set i ((w.getD i (0, 0)).1) := by
    show (arr.shape.set i (sliceLen (dimSize arr i) 0 (some 1))).set i
      ((w.getD i (0, 0)).1) = _
    rw [List.set_set]
  have haft : (flipAxis (linspaceAxis ((endv.getD i (0, 0)).2)
      (sliceInDim arr i (-1) none) ((w.getD i (0, 0)).2) i) i).shape
      = arr.shape.set i ((w.getD i (0, 0)).2) := by
    show (arr.shape.set i (sliceLen (dimSize arr i) (-1) none)).set i
      ((w.getD i (0, 0)).2) = _
    rw [List.set_set]
  exact threePart_ok i arr _ _ _ _ hi hbef haft

theorem concatVal_append_skip (i : Nat) (qs : List NDArr) (idx : List Nat) :
    ∀ (ps : List NDArr) (j : Nat), (ps.map (fun p => dimSize p i)).sum ≤ j →
    concatVal i (ps ++ qs) idx j
      = concatVal i qs idx (j - (ps.map (fun p => dimSize p i)).sum) := by
  intro ps
  induction ps with
  | nil => intro j _; simp
  | cons p t ih =>
    intro j hj
    rw [List.map_cons, List.sum_cons] at hj
    rw [List.cons_append]
    simp only [concatVal]
    rw [if_neg (by omega)]
    rw [ih (j - dimSize p i) (by omega)]
    rw [List.map_cons, List.sum_cons]
    congr 1
    omega

theorem concatVal_replicate_cons (i : Nat) (x : NDArr) (right : List NDArr)
    (idx : List Nat) (t : Nat) (ht : t < dimSize x i) :
    ∀ mm : Nat, concatVal i (List.replicate mm x ++ (x :: right)) idx
      (mm * dimSize x i + t) = x.val (idx.set i t) := by
  intro mm
  induction mm with
  | zero =>
    rw [Nat.zero_mul, Nat.zero_add, List.replicate_zero, List.nil_append]
    simp only [concatVal]
    rw [if_pos ht]
  | succ mm ih =>
    have hsm : (mm + 1) * dimSize x i + t = dimSize x i + (mm * dimSize x i + t) := by
      rw [Nat.succ_mul]
      omega
    rw [hsm, List.replicate_succ, List.cons_append]
    simp only [concatVal]
    rw [if_neg (by omega)]
    have h2 : dimSize x i + (mm * dimSize x i + t) - dimSize x i
        = mm * dimSize x i + t := by omega
    rw [h2]
    exact ih

theorem map_dimSize_replicate (i m : Nat) (x : NDArr) :
    ((List.replicate m x).map (fun p => dimSize p i)).sum = m * dimSize x i := by
  rw [List.map_replicate, List.sum_replicate, smul_eq_mul]

theorem padWrapStep_ok (w : List (Nat × Nat)) :
    StepOk (padWrapStep w) (fun i => (w.getD i (0, 0)).1) (fun i => (w.getD i (0, 0)).2) := by
  intro arr i b hi2 hstep
  unfold padWrapStep at hstep
  by_cases hz : dimSize arr i = 0
  · rw [if_pos hz] at hstep
    obtain ⟨h1, h2, h3⟩ := zeroAxis_ok _ _ _ hstep
    rw [h3]
    simp only [h1, h2]
    exact zeroAxis_stepOk arr i hz
  · rw [if_neg hz] at hstep
    have hb := pureOk hstep
    subst hb
    have hn : 1 ≤ dimSize arr i := by omega
    have hsliceL : (w.getD i (0, 0)).1 % dimSize arr i > 0 →
        dimSize (sliceInDim arr i
          ((dimSize arr i : Int) - ((w.getD i (0, 0)).1 % dimSize arr i : Nat))
          (some (dimSize arr i : Int))) i = (w.getD i (0, 0)).1 % dimSize arr i := by
      intro _
      show (arr.shape.set i (sliceLen (dimSize arr i) _ _)).getD i 0 = _
      rw [getD_set_self _ i _ 0 hi2]
      exact sliceLen_tail (dimSize arr i) _ (le_of_lt (Nat.mod_lt _ (by omega)))
    have hsliceR : (w.getD i (0, 0)).2 % dimSize arr i > 0 →
        dimSize (sliceInDim arr i 0
          (some (((w.getD i (0, 0)).2 % dimSize arr i : Nat) : Int))) i
          = (w.getD i (0, 0)).2 % dimSize arr i := by
      intro _
      show (arr.shape.set i (sliceLen (dimSize arr i) _ _)).getD i 0 = _
      rw [getD_set_self _ i _ 0 hi2]
      exact sliceLen_zero_to (dimSize arr i) _ (le_of_lt (Nat.mod_lt _ (by omega)))
    -- sizes of the three part groups
    have hsumL : (((if (w.getD i (0, 0)).1 % dimSize arr i > 0 then
          [sliceInDim arr i
            ((dimSize arr i : Int) - ((w.getD i (0, 0)).1 % dimSize arr i : Nat))
            (some (dimSize arr i : Int))]
        else []).map (fun p => dimSize p i)).sum)
        = (w.getD i (0, 0)).1 % dimSize arr i := by
      by_cases h : (w.getD i (0, 0)).1 % dimSize arr i > 0
      · rw [if_pos h]
        simp only [List.map_cons, List.map_nil, List.sum_cons, List.sum_nil]
        rw [hsliceL h]
        omega
      · rw [if_neg h]
        simp only [List.map_nil, List.sum_nil]
        omega
    have hsumR : (((if (w.getD i (0, 0)).2 % dimSize arr i > 0 then
          [sliceInDim arr i 0 (some (((w.getD i (0, 0)).2 % dimSize arr i : Nat) : Int))]
        else []).map (fun p => dimSize p i)).sum)
        = (w.getD i (0, 0)).2 % dimSize arr i := by
      by_cases h : (w.getD i (0, 0)).2 % dimSize arr i > 0
      · rw [if_pos h]
        simp only [List.map_cons, List.map_nil, List.sum_cons, List.sum_nil]
        rw [hsliceR h]
        omega
      · rw [if_neg h]
        simp only [List.map_nil, List.sum_nil]
        omega
    have harith2 : (w.getD i (0, 0)).1 % dimSize arr i +
        ((w.getD i (0, 0)).1 / dimSize arr i + (w.getD i (0, 0)).2 / dimSize arr i + 1)
          * dimSize arr i + (w.getD i (0, 0)).2 % dimSize arr i
        = dimSize arr i + (w.getD i (0, 0)).1 + (w.getD i (0, 0)).2 := by
      rw [Nat.add_mul, Nat.add_mul, one_mul,
        Nat.mul_comm ((w.getD i (0, 0)).1 / dimSize arr i) (dimSize arr i),
        Nat.mul_comm ((w.getD i (0, 0)).2 / dimSize arr i) (dimSize arr i)]
      have hd1 := Nat.div_add_mod ((w.getD i (0, 0)).1) (dimSize arr i)
      have hd2 := Nat.div_add_mod ((w.getD i (0, 0)).2) (dimSize arr i)
      omega
    constructor
    · -- shape
      show concatShape i _ = _
      unfold concatShape
      rw [List.map_append, List.map_append, List.sum_append, List.sum_append]
      rw [hsumL, hsumR, map_dimSize_replicate]
      by_cases h : (w.getD i (0, 0)).1 % dimSize arr i > 0
      · rw [if_pos h]
        simp only [List.cons_append, List.headD]
        show (arr.shape.set i (sliceLen (dimSize arr i) _ _)).set i _ = _
        rw [List.set_set]
        congr 1
      · rw [if_neg h]
        simp only [List.nil_append, List.replicate_succ, List.cons_append, List.headD]
        show arr.shape.set i _ = _
        congr 1
    · -- interior values
      intro idx hv
      have hidxlen : i < idx.length := by
        rw [validIdx_length hv]
        exact hi2
      show concatVal i _ _ (idxAt (idx.set i (idxAt idx i + (w.getD i (0, 0)).1)) i) = _
      rw [show idxAt (idx.set i (idxAt idx i + (w.getD i (0, 0)).1)) i
        = idxAt idx i + (w.getD i (0, 0)).1 from getD_set_self idx i _ 0 hidxlen]
      rw [List.append_assoc]
      have hpre : (((if (w.getD i (0, 0)).1 % dimSize arr i > 0 then
            [sliceInDim arr i
              ((dimSize arr i : Int) - ((w.getD i (0, 0)).1 % dimSize arr i : Nat))
              (some (dimSize arr i : Int))]
          else []).map (fun p => dimSize p i)).sum)
          ≤ idxAt idx i + (w.getD i (0, 0)).1 := by
        rw [hsumL]
        have hle := Nat.mod_le ((w.getD i (0, 0)).1) (dimSize arr i)
        omega
      rw [concatVal_append_skip i _ _ _ _ hpre]
      rw [hsumL]
      have hrep : List.replicate ((w.getD i (0, 0)).1 / dimSize arr i
            + (w.getD i (0, 0)).2 / dimSize arr i + 1) arr
          = List.replicate ((w.getD i (0, 0)).1 / dimSize arr i) arr ++
            (arr :: List.replicate ((w.getD i (0, 0)).2 / dimSize arr i) arr) := by
        rw [show (w.getD i (0, 0)).1 / dimSize arr i + (w.getD i (0, 0)).2 / dimSize arr i + 1
          = (w.getD i (0, 0)).1 / dimSize arr i
            + ((w.getD i (0, 0)).2 / dimSize arr i + 1) from by omega]
        rw [List.replicate_add, List.replicate_succ]
      rw [hrep, List.append_assoc, List.cons_append]
      have harith : idxAt idx i + (w.getD i (0, 0)).1 - (w.getD i (0, 0)).1 % dimSize arr i
          = ((w.getD i (0, 0)).1 / dimSize arr i) * dimSize arr i + idxAt idx i := by
        have hd := Nat.div_add_mod ((w.getD i (0, 0)).1) (dimSize arr i)
        generalize hq : (w.getD i (0, 0)).1 / dimSize arr i = q at hd ⊢
        generalize hm : (w.getD i (0, 0)).1 % dimSize arr i = m at hd ⊢
        rw [Nat.mul_comm q (dimSize arr i)]
        omega
      rw [harith]
      have hlt : idxAt idx i < dimSize arr i := validIdx_bound hv i hi2
      rw [concatVal_replicate_cons i arr _ _ (idxAt idx i) hlt]
      rw [List.set_set]
      show arr.val (idx.set i (idx.getD i 0)) = arr.val idx
      rw [set_getD_self idx i 0]

theorem buildPadLoop_zero (rm rt : Bool) (i axisSize : Nat) (before : Bool) :
    ∀ (fuel : Nat) (arr edge : NDArr),
    buildPadLoop rm rt i axisSize before fuel arr edge 0 = arr := by
  intro fuel arr edge
  cases fuel with
  | zero => rfl
  | succ f =>
    simp only [buildPadLoop]
    rw [if_true]

theorem noGrow_ok (arr : NDArr) (i : Nat) :
    arr.shape = arr.shape.set i (dimSize arr i + 0) ∧
    ∀ idx, validIdx arr.shape idx = true →
      arr.val (idx.set i (idxAt idx i + 0)) = arr.val idx := by
  constructor
  · exact (set_getD_self arr.shape i 0).symm
  · intro idx _
    show arr.val (idx.set i (idx.getD i 0)) = arr.val idx
    rw [set_getD_self idx i 0]

theorem chunkShape (rt : Bool) (i : Nat) (edge xs : NDArr) :
    (if rt then oddReflect edge (flipAxis xs i) i else flipAxis xs i).shape = xs.shape := by
  cases rt
  · rfl
  · rfl

theorem validIdx_grow (sh idx : List Nat) (i m : Nat) (hv : validIdx sh idx = true)
    (hi2 : i < sh.length) (hm : sh.getD i 0 ≤ m) : validIdx (sh.set i m) idx = true := by
  apply validIdx_intro
  · rw [List.length_set]
    exact validIdx_length hv
  · intro j hj
    rw [List.length_set] at hj
    by_cases hji : j = i
    · subst hji
      rw [getD_set_self sh j m 0 hj]
      have := validIdx_bound hv j hj
      omega
    · rw [getD_set_ne sh i j m 0 (fun h => hji h.symm)]
      exact validIdx_bound hv j hj

theorem concat2_before_ok (i : Nat) (arr xo : NDArr) (curr : Nat)
    (hi2 : i < arr.shape.length) (hxo : xo.shape = arr.shape.set i curr) :
    (concatenate i [xo, arr]).shape = arr.shape.set i (curr + dimSize arr i) ∧
    ∀ idx, validIdx arr.shape idx = true →
      (concatenate i [xo, arr]).val (idx.set i (idxAt idx i + curr)) = arr.val idx := by
  have hdxo : dimSize xo i = curr := by
    show xo.shape.getD i 0 = curr
    rw [hxo]
    exact getD_set_self arr.shape i curr 0 hi2
  constructor
  · show concatShape i [xo, arr] = _
    unfold concatShape
    simp only [List.headD_cons, List.map_cons, List.map_nil, List.sum_cons, List.sum_nil]
    rw [hdxo, hxo, List.set_set]
    congr 1
  · intro idx hv
    have hidxlen : i < idx.length := by
      rw [validIdx_length hv]
      exact hi2
    have hlt : idxAt idx i < dimSize arr i := validIdx_bound hv i hi2
    show concatVal i [xo, arr] (idx.set i (idxAt idx i + curr))
      (idxAt (idx.set i (idxAt idx i + curr)) i) = arr.val idx
    rw [show idxAt (idx.set i (idxAt idx i + curr)) i = idxAt idx i + curr from
      getD_set_self idx i _ 0 hidxlen]
    simp only [concatVal]
    rw [hdxo]
    rw [if_neg (by omega : ¬(idxAt idx i + curr < curr))]
    rw [if_pos (show idxAt idx i + curr - curr < dimSize arr i from by omega)]
    rw [List.set_set]
    rw [show idxAt idx i + curr - curr = idx.getD i 0 from by unfold idxAt; omega]
    rw [set_getD_self idx i 0]

theorem concat2_after_ok (i : Nat) (arr xo : NDArr) (curr : Nat)
    (hi2 : i < arr.shape.length) (hxo : xo.shape = arr.shape.set i curr) :
    (concatenate i [arr, xo]).shape = arr.shape.set i (dimSize arr i + curr) ∧
    ∀ idx, validIdx arr.shape idx = true →
      (concatenate i [arr, xo]).val idx = arr.val idx := by
  have hdxo : dimSize xo i = curr := by
    show xo.shape.getD i 0 = curr
    rw [hxo]
    exact getD_set_self arr.shape i curr 0 hi2
  constructor
  · show concatShape i [arr, xo] = _
    unfold concatShape
    simp only [List.headD_cons, List.map_cons, List.map_nil, List.sum_cons, List.sum_nil]
    rw [hdxo]
    congr 1
  · intro idx hv
    have hlt : idxAt idx i < dimSize arr i := validIdx_bound hv i hi2
    show concatVal i [arr, xo] idx (idxAt idx i) = arr.val idx
    simp only [concatVal]
    rw [if_pos hlt]
    show arr.val (idx.set i (idx.getD i 0)) = arr.val idx
    rw [set_getD_self idx i 0]

theorem buildPadLoop_before_succ (rm rt : Bool) (i axisSize fuel : Nat)
    (arr edge : NDArr) (padding o curr : Nat)
    (hp : ¬ padding = 0) (haz : ¬ axisSize = 0)
    (ho : o = (if rm ∧ axisSize > 1 then 1 else 0))
    (hc : curr = min padding (axisSize - o)) :
    buildPadLoop rm rt i axisSize true (fuel + 1) arr edge padding
      = buildPadLoop rm rt i axisSize true fuel
          (concatenate i [bchunk rt i arr edge o curr, arr])
          (if rt ∧ axisSize > 1 then
              sliceInDim (bchunk rt i arr edge o curr) i 0 (some 1)
            else edge)
          (padding - curr) := by
  subst ho
  subst hc
  simp only [buildPadLoop]
  rw [if_neg hp, if_neg haz]
  rfl

theorem buildPadLoop_after_succ (rm rt : Bool) (i axisSize fuel : Nat)
    (arr edge : NDArr) (padding o curr : Nat)
    (hp : ¬ padding = 0) (haz : ¬ axisSize = 0)
    (ho : o = (if rm ∧ axisSize > 1 then 1 else 0))
    (hc : curr = min padding (axisSize - o)) :
    buildPadLoop rm rt i axisSize false (fuel + 1) arr edge padding
      = buildPadLoop rm rt i axisSize false fuel
          (concatenate i [arr, achunk rm rt i axisSize arr edge o curr])
          (if rt ∧ axisSize > 1 then
              sliceInDim (achunk rm rt i axisSize arr edge o curr) i (-1) none
            else edge)
          (padding - curr) := by
  subst ho
  subst hc
  simp only [buildPadLoop]
  rw [if_neg hp, if_neg haz]
  rfl

theorem buildPadLoop_before_ok (rm rt : Bool) (i axisSize : Nat) (hax : 1 ≤ axisSize) :
    ∀ (fuel : Nat) (arr edge : NDArr) (padding : Nat),
      padding ≤ fuel → i < arr.shape.length → axisSize ≤ dimSize arr i →
      (buildPadLoop rm rt i axisSize true fuel arr edge padding).shape
          = arr.shape.set i (dimSize arr i + padding) ∧
      ∀ idx, validIdx arr.shape idx = true →
        (buildPadLoop rm rt i axisSize true fuel arr edge padding).val
            (idx.set i (idxAt idx i + padding)) = arr.val idx := by
  intro fuel
  induction fuel with
  | zero =>
    intro arr edge padding hpf hil hdim
    have hp0 : padding = 0 := by omega
    subst hp0
    rw [buildPadLoop_zero]
    exact noGrow_ok arr i
  | succ fuel ih =>
    intro arr edge padding hpf hil hdim
    by_cases hp : padding = 0
    · subst hp
      rw [buildPadLoop_zero]
      exact noGrow_ok arr i
    · have haz : ¬ axisSize = 0 := by omega
      rw [buildPadLoop_before_succ rm rt i axisSize fuel arr edge padding _ _ hp haz rfl rfl]
      generalize ho : (if rm ∧ axisSize > 1 then (1 : Nat) else 0) = o
      have ho2 : 1 ≤ axisSize - o := by
        rw [← ho]
        split <;> omega
      generalize hc : min padding (axisSize - o) = curr
      have hc1 : 1 ≤ curr := by
        rw [← hc]
        omega
      have hc2 : curr ≤ padding := by
        rw [← hc]
        omega
      have hc3 : o + curr ≤ axisSize := by
        rw [← hc]
        omega
      have hoffcurr : o + curr ≤ dimSize arr i := le_trans hc3 hdim
      have hbs := chunkShape rt i edge
        (sliceInDim arr i (o : Int) (some ((o + curr : Nat) : Int)))
      have hxo : (bchunk rt i arr edge o curr).shape = arr.shape.set i curr := by
        rw [show (bchunk rt i arr edge o curr).shape
          = (sliceInDim arr i (o : Int) (some ((o + curr : Nat) : Int))).shape from hbs]
        show arr.shape.set i (sliceLen (dimSize arr i) (o : Int)
          (some ((o + curr : Nat) : Int))) = arr.shape.set i curr
        rw [sliceLen_off (dimSize arr i) o curr hoffcurr]
      obtain ⟨hq1, hq2⟩ := concat2_before_ok i arr (bchunk rt i arr edge o curr) curr hil hxo
      have hlenA : i < (concatenate i [bchunk rt i arr edge o curr, arr]).shape.length := by
        rw [hq1, List.length_set]
        exact hil
      have hdimA : dimSize (concatenate i [bchunk rt i arr edge o curr, arr]) i
          = curr + dimSize arr i := by
        unfold dimSize
        rw [hq1]
        exact getD_set_self arr.shape i _ 0 hil
      obtain ⟨hI1, hI2⟩ := ih (concatenate i [bchunk rt i arr edge o curr, arr])
        (if rt ∧ axisSize > 1 then
            sliceInDim (bchunk rt i arr edge o curr) i 0 (some 1)
          else edge)
        (padding - curr) (by omega) hlenA (by rw [hdimA]; omega)
      constructor
      · rw [hI1, hdimA, hq1, List.set_set]
        congr 1
        omega
      · intro idx hv
        have hidxlen : i < idx.length := by
          rw [validIdx_length hv]
          exact hil
        have hv2 : validIdx (concatenate i [bchunk rt i arr edge o curr, arr]).shape
            (idx.set i (idxAt idx i + curr)) = true := by
          rw [hq1, show arr.shape.set i (curr + dimSize arr i)
            = arr.shape.set i (arr.shape.getD i 0 + curr + 0) from by
              congr 1
              unfold dimSize
              omega]
          exact validIdx_shift arr.shape idx i curr 0 hv hil
        have hstep2 := hI2 (idx.set i (idxAt idx i + curr)) hv2
        rw [show (idx.set i (idxAt idx i + curr)).set i
            (idxAt (idx.set i (idxAt idx i + curr)) i + (padding - curr))
          = idx.set i (idxAt idx i + padding) from by
            rw [List.set_set, show idxAt (idx.set i (idxAt idx i + curr)) i
              = idxAt idx i + curr from getD_set_self idx i _ 0 hidxlen]
            congr 1
            omega] at hstep2
        rw [hstep2]
        exact hq2 idx hv

theorem buildPadLoop_after_ok (rm rt : Bool) (i axisSize : Nat) (hax : 1 ≤ axisSize) :
    ∀ (fuel : Nat) (arr edge : NDArr) (padding : Nat),
      padding ≤ fuel → i < arr.shape.length → axisSize ≤ dimSize arr i →
      (buildPadLoop rm rt i axisSize false fuel arr edge padding).shape
          = arr.shape.set i (dimSize arr i + padding) ∧
      ∀ idx, validIdx arr.shape idx = true →
        (buildPadLoop rm rt i axisSize false fuel arr edge padding).val idx
          = arr.val idx := by
  intro fuel
  induction fuel with
  | zero =>
    intro arr edge padding hpf hil hdim
    have hp0 : padding = 0 := by omega
    subst hp0
    rw [buildPadLoop_zero]
    refine ⟨(set_getD_self arr.shape i 0).symm, fun idx _ => rfl⟩
  | succ fuel ih =>
    intro arr edge padding hpf hil hdim
    by_cases hp : padding = 0
    · subst hp
      rw [buildPadLoop_zero]
      refine ⟨(set_getD_self arr.shape i 0).symm, fun idx _ => rfl⟩
    · have haz : ¬ axisSize = 0 := by omega
      rw [buildPadLoop_after_succ rm rt i axisSize fuel arr edge padding _ _ hp haz rfl rfl]
      generalize ho : (if rm ∧ axisSize > 1 then (1 : Nat) else 0) = o
      have ho2 : 1 ≤ axisSize - o := by
        rw [← ho]
        split <;> omega
      generalize hc : min padding (axisSize - o) = curr
      have hc1 : 1 ≤ curr := by
        rw [← hc]
        omega
      have hc2 : curr ≤ padding := by
        rw [← hc]
        omega
      have hc3 : o + curr ≤ axisSize := by
        rw [← hc]
        omega
      have hoffcurr : o + curr ≤ dimSize arr i := le_trans hc3 hdim
      have has := chunkShape rt i edge
        (sliceInDim arr i (-((curr + o : Nat) : Int))
          (if ¬rm ∨ axisSize = 1 then none else some (-1)))
      have hxo : (achunk rm rt i axisSize arr edge o curr).shape
          = arr.shape.set i curr := by
        rw [show (achunk rm rt i axisSize arr edge o curr).shape
          = (sliceInDim arr i (-((curr + o : Nat) : Int))
              (if ¬rm ∨ axisSize = 1 then none else some (-1))).shape from has]
        show arr.shape.set i (sliceLen (dimSize arr i) (-((curr + o : Nat) : Int))
          (if ¬rm ∨ axisSize = 1 then none else some (-1))) = arr.shape.set i curr
        by_cases hst : ¬rm = true ∨ axisSize = 1
        · have ho0 : o = 0 := by
            rw [← ho, if_neg]
            rintro ⟨h1, h2⟩
            rcases hst with h | h
            · exact h h1
            · omega
          rw [if_pos hst, sliceLen_negstart_none (dimSize arr i) (curr + o)
            (by omega) (by omega)]
          rw [ho0]
          rfl
        · have hcond : rm = true ∧ axisSize > 1 := by
            constructor
            · by_cases hrm : rm = true
              · exact hrm
              · exact absurd (Or.inl hrm) hst
            · by_cases h1 : axisSize = 1
              · exact absurd (Or.inr h1) hst
              · omega
          have ho1' : o = 1 := by
            rw [← ho, if_pos hcond]
          rw [if_neg hst, sliceLen_negstart_neg_one (dimSize arr i) (curr + o)
            (by omega) (by omega)]
          rw [ho1']
          congr 1
      obtain ⟨hq1, hq2⟩ := concat2_after_ok i arr (achunk rm rt i axisSize arr edge o curr)
        curr hil hxo
      have hlenA : i < (concatenate i
          [arr, achunk rm rt i axisSize arr edge o curr]).shape.length := by
        rw [hq1, List.length_set]
        exact hil
      have hdimA : dimSize (concatenate i [arr, achunk rm rt i axisSize arr edge o curr]) i
          = dimSize arr i + curr := by
        unfold dimSize
        rw [hq1]
        exact getD_set_self arr.shape i _ 0 hil
      obtain ⟨hI1, hI2⟩ := ih (concatenate i [arr, achunk rm rt i axisSize arr edge o curr])
        (if rt ∧ axisSize > 1 then
            sliceInDim (achunk rm rt i axisSize arr edge o curr) i (-1) none
          else edge)
        (padding - curr) (by omega) hlenA (by rw [hdimA]; omega)
      constructor
      · rw [hI1, hdimA, hq1, List.set_set]
        congr 1
        omega
      · intro idx hv
        have hv2 : validIdx (concatenate i
            [arr, achunk rm rt i axisSize arr edge o curr]).shape idx = true := by
          rw [hq1]
          exact validIdx_grow arr.shape idx i (dimSize arr i + curr) hv hil
            (by exact Nat.le_add_right _ _)
        rw [hI2 idx hv2]
        exact hq2 idx hv

theorem buildPadding_ok (rm rt : Bool) (i : Nat) (arr : NDArr) (lo hig : Nat)
    (hil : i < arr.shape.length) (hz : ¬ dimSize arr i = 0) :
    (buildPadding rm rt i (dimSize arr i)
        (buildPadding rm rt i (dimSize arr i) arr lo true) hig false).shape
      = arr.shape.set i (dimSize arr i + lo + hig) ∧
    ∀ idx, validIdx arr.shape idx = true →
      (buildPadding rm rt i (dimSize arr i)
          (buildPadding rm rt i (dimSize arr i) arr lo true) hig false).val
        (idx.set i (idxAt idx i + lo)) = arr.val idx := by
  have hax : 1 ≤ dimSize arr i := by omega
  obtain ⟨h1s, h1v⟩ := buildPadLoop_before_ok rm rt i (dimSize arr i) hax
    lo arr (sliceInDim arr i 0 (some 1)) lo (le_refl lo) hil (le_refl _)
  have hdimB : dimSize (buildPadLoop rm rt i (dimSize arr i) true lo arr
      (sliceInDim arr i 0 (some 1)) lo) i = dimSize arr i + lo := by
    show (buildPadLoop rm rt i (dimSize arr i) true lo arr
      (sliceInDim arr i 0 (some 1)) lo).shape.getD i 0 = dimSize arr i + lo
    rw [h1s]
    exact getD_set_self arr.shape i _ 0 hil
  have hlenB : i < (buildPadLoop rm rt i (dimSize arr i) true lo arr
      (sliceInDim arr i 0 (some 1)) lo).shape.length := by
    rw [h1s, List.length_set]
    exact hil
  obtain ⟨h2s, h2v⟩ := buildPadLoop_after_ok rm rt i (dimSize arr i) hax
    hig (buildPadLoop rm rt i (dimSize arr i) true lo arr (sliceInDim arr i 0 (some 1)) lo)
    (sliceInDim (buildPadLoop rm rt i (dimSize arr i) true lo arr
      (sliceInDim arr i 0 (some 1)) lo) i (-1) none)
    hig (le_refl _) hlenB (by rw [hdimB]; omega)
  constructor
  · show (buildPadLoop rm rt i (dimSize arr i) false hig
        (buildPadLoop rm rt i (dimSize arr i) true lo arr (sliceInDim arr i 0 (some 1)) lo)
        (sliceInDim (buildPadLoop rm rt i (dimSize arr i) true lo arr
          (sliceInDim arr i 0 (some 1)) lo) i (-1) none) hig).shape
      = arr.shape.set i (dimSize arr i + lo + hig)
    rw [h2s, hdimB, h1s, List.set_set]
  · intro idx hv
    have hvB : validIdx (buildPadLoop rm rt i (dimSize arr i) true lo arr
        (sliceInDim arr i 0 (some 1)) lo).shape (idx.set i (idxAt idx i + lo)) = true := by
      rw [h1s]
      exact validIdx_shift arr.shape idx i lo 0 hv hil
    show (buildPadLoop rm rt i (dimSize arr i) false hig
        (buildPadLoop rm rt i (dimSize arr i) true lo arr (sliceInDim arr i 0 (some 1)) lo)
        (sliceInDim (buildPadLoop rm rt i (dimSize arr i) true lo arr
          (sliceInDim arr i 0 (some 1)) lo) i (-1) none) hig).val
      (idx.set i (idxAt idx i + lo)) = arr.val idx
    rw [h2v (idx.set i (idxAt idx i + lo)) hvB]
    exact h1v idx hv

theorem foldl_shift_eq_map (lo : Nat → Nat) (idx : List Nat) (n : Nat) (hn : idx.length = n) :
    (List.range n).foldl (fun jdx i => jdx.set i (idxAt jdx i + lo i)) idx
      = (List.range n).map (fun i => idxAt idx i + lo i) := by
  have hL : ((List.range n).foldl (fun jdx i => jdx.set i (idxAt jdx i + lo i)) idx).length
      = idx.length := foldl_set_length (fun i v => v + lo i) (List.range n) idx
  apply List.ext_getElem
  · rw [hL, hn, List.length_map, List.length_range]
  · intro j h1 h2
    have hjn : j < n := by
      rw [List.length_map, List.length_range] at h2
      exact h2
    have hG : ((List.range n).foldl (fun jdx i => jdx.set i (idxAt jdx i + lo i)) idx).getD j 0
        = if j ∈ List.range n then idx.getD j 0 + lo j else idx.getD j 0 :=
      foldl_set_getD (fun i v => v + lo i) (List.range n) idx (List.nodup_range n)
        (fun r hr => by rw [hn]; exact List.mem_range.mp hr) j
    have e1 := List.getD_eq_getElem
      ((List.range n).foldl (fun jdx i => jdx.set i (idxAt jdx i + lo i)) idx) 0 h1
    have e2 := List.getD_eq_getElem ((List.range n).map (fun i => idxAt idx i + lo i)) 0 h2
    rw [← e1, ← e2, hG, if_pos (List.mem_range.mpr hjn), e2, List.getElem_map,
      List.getElem_range]
    rfl

theorem padAxes_ok (step : NDArr → Nat → Except String NDArr) (lo hi : Nat → Nat)
    (hstep : StepOk step lo hi) (x out : NDArr) (h : padAxes step x = Except.ok out) :
    (out.shape.length = x.shape.length ∧
     ∀ i, i < x.shape.length → out.shape.getD i 0 = dimSize x i + lo i + hi i) ∧
    ∀ idx, validIdx x.shape idx = true →
      out.val ((List.range x.shape.length).map (fun i => idxAt idx i + lo i)) = x.val idx := by
  unfold padAxes at h
  obtain ⟨hsh, hval⟩ := foldlM_pad step lo hi hstep (List.range x.shape.length) x out
    (fun j hj => List.mem_range.mp hj) h
  constructor
  · constructor
    · rw [hsh]
      exact foldl_set_length (fun i v => v + lo i + hi i) (List.range x.shape.length) x.shape
    · intro i hi2
      rw [hsh]
      have H : ((List.range x.shape.length).foldl
          (fun sh j => sh.set j (sh.getD j 0 + lo j + hi j)) x.shape).getD i 0
          = if i ∈ List.range x.shape.length then x.shape.getD i 0 + lo i + hi i
            else x.shape.getD i 0 :=
        foldl_set_getD (fun j v => v + lo j + hi j) (List.range x.shape.length) x.shape
          (List.nodup_range x.shape.length) (fun j hj => List.mem_range.mp hj) i
      rw [H, if_pos (List.mem_range.mpr hi2)]
      rfl
  · intro idx hv
    have h2 := hval idx hv
    rw [foldl_shift_eq_map lo idx x.shape.length (validIdx_length hv)] at h2
    exact h2

theorem padReflectStep_ok (rm rt : Bool) (w : List (Nat × Nat)) :
    StepOk (padReflectStep rm rt w)
      (fun i => (w.getD i (0, 0)).1) (fun i => (w.getD i (0, 0)).2) := by
  intro arr i b hi2 hstep
  unfold padReflectStep at hstep
  by_cases hz : dimSize arr i = 0
  · rw [if_pos hz] at hstep
    obtain ⟨h1, h2, h3⟩ := zeroAxis_ok _ _ _ hstep
    rw [h3]
    simp only [h1, h2]
    exact zeroAxis_stepOk arr i hz
  · rw [if_neg hz] at hstep
    have hb := pureOk hstep
    subst hb
    exact buildPadding_ok rm rt i arr ((w.getD i (0, 0)).1) ((w.getD i (0, 0)).2) hi2 hz

theorem jnpPad_ok (x : NDArr) (w : List (Nat × Nat)) (mode : PadMode) (c : Int)
    (endv : List (Int × Int)) (odd : Bool) (out : NDArr)
    (h : jnpPad x w mode c endv odd = Except.ok out) :
    (out.shape.length = x.shape.length ∧
     ∀ i, i < x.shape.length →
       out.shape.getD i 0 = dimSize x i + (w.getD i (0, 0)).1 + (w.getD i (0, 0)).2) ∧
    ∀ idx, validIdx x.shape idx = true →
      out.val ((List.range x.shape.length).map
        (fun i => idxAt idx i + (w.getD i (0, 0)).1)) = x.val idx := by
  unfold jnpPad at h
  by_cases hnd : x.shape.length = 0
  · rw [if_pos hnd] at h
    have hxo := pureOk h
    subst hxo
    constructor
    · exact ⟨rfl, fun i hi => by omega⟩
    · intro idx hv
      have hidx : idx = [] := List.eq_nil_of_length_eq_zero (by
        rw [validIdx_length hv, hnd])
      subst hidx
      rw [hnd]
      rfl
  · rw [if_neg hnd] at h
    cases mode with
    | constant =>
      have hxo := pureOk h
      subst hxo
      constructor
      · constructor
        · show ((List.range x.shape.length).map
            (fun i => x.shape.getD i 0 + (w.getD i (0, 0)).1 + (w.getD i (0, 0)).2)).length
            = x.shape.length
          rw [List.length_map, List.length_range]
        · intro i hi2
          show ((List.range x.shape.length).map
            (fun i => x.shape.getD i 0 + (w.getD i (0, 0)).1 + (w.getD i (0, 0)).2)).getD i 0
            = dimSize x i + (w.getD i (0, 0)).1 + (w.getD i (0, 0)).2
          rw [List.getD_eq_getElem _ 0 (by
            rw [List.length_map, List.length_range]
            exact hi2), List.getElem_map, List.getElem_range]
          rfl
      · intro idx hv
        have hlen := validIdx_length hv
        have hMget : ∀ j, j < x.shape.length →
            idxAt ((List.range x.shape.length).map
              (fun i2 => idxAt idx i2 + (w.getD i2 (0, 0)).1)) j
            = idxAt idx j + (w.getD j (0, 0)).1 := by
          intro j hj
          show ((List.range x.shape.length).map
            (fun i2 => idxAt idx i2 + (w.getD i2 (0, 0)).1)).getD j 0 = _
          rw [List.getD_eq_getElem _ 0 (by
            rw [List.length_map, List.length_range]
            exact hj), List.getElem_map, List.getElem_range]
        have hall : ((List.range x.shape.length).all
            (fun i => decide ((w.getD i (0, 0)).1 ≤ idxAt ((List.range x.shape.length).map
                (fun i2 => idxAt idx i2 + (w.getD i2 (0, 0)).1)) i) &&
              decide (idxAt ((List.range x.shape.length).map
                (fun i2 => idxAt idx i2 + (w.getD i2 (0, 0)).1)) i
                < (w.getD i (0, 0)).1 + dimSize x i))) = true := by
          rw [List.all_eq_true]
          intro i hmem
          rw [List.mem_range] at hmem
          simp only [Bool.and_eq_true, decide_eq_true_eq]
          rw [hMget i hmem]
          have hb := validIdx_bound hv i hmem
          constructor
          · omega
          · show idxAt idx i + (w.getD i (0, 0)).1 < (w.getD i (0, 0)).1 + dimSize x i
            unfold idxAt dimSize
            omega
        simp only [laxPad]
        rw [if_pos hall]
        apply congrArg
        apply List.ext_getElem
        · rw [List.length_map, List.length_range, hlen]
        · intro j h1 h2
          have hj : j < x.shape.length := by
            rw [List.length_map, List.length_range] at h1
            exact h1
          rw [List.getElem_map, List.getElem_range]
          show idxAt ((List.range x.shape.length).map
            (fun i2 => idxAt idx i2 + (w.getD i2 (0, 0)).1)) j - (w.getD j (0, 0)).1
            = idx[j]
          rw [hMget j hj, Nat.add_sub_cancel]
          exact List.getD_eq_getElem idx 0 h2
    | edge => exact padAxes_ok _ _ _ (padEdgeStep_ok w) x out h
    | wrap => exact padAxes_ok _ _ _ (padWrapStep_ok w) x out h
    | reflect => exact padAxes_ok _ _ _ (padReflectStep_ok true odd w) x out h
    | symmetric => exact padAxes_ok _ _ _ (padReflectStep_ok false odd w) x out h
    | linearRamp => exact padAxes_ok _ _ _ (padLinearRampStep_ok endv w) x out h
    | maximum => exact padAxes_ok _ _ _ (padStatsStep_ok .maximum w) x out h
    | minimum => exact padAxes_ok _ _ _ (padStatsStep_ok .minimum w) x out h
    | mean => exact padAxes_ok _ _ _ (padStatsStep_ok .mean w) x out h
    | median => exact padAxes_ok _ _ _ (padStatsStep_ok .median w) x out h
    | empty => exact padAxes_ok _ _ _ (padEmptyStep_ok w) x out h

theorem isOk_exists (e : Except String NDArr) (h : e.isOk = true) :
    ∃ out, e = Except.ok out := by
  cases e with
  | ok v => exact ⟨v, rfl⟩
  | error s => exact Bool.noConfusion h

/-- **C3.** For every array, normalized per-axis width pairs and every
supported mode, a successful `pad` returns an array with the same
number of axes whose shape on each axis `i` is
`a.shape[i] + w[i].before + w[i].after`. -/
theorem pad_shape_spec (x : NDArr) (w : List (Nat × Nat)) (mode : PadMode) (c : Int)
    (endv : List (Int × Int)) (odd : Bool) (out : NDArr)
    (h : jnpPad x w mode c endv odd = Except.ok out) :
    out.shape.length = x.shape.length ∧
    ∀ i, i < x.shape.length →
      out.shape.getD i 0 = dimSize x i + (w.getD i (0, 0)).1 + (w.getD i (0, 0)).2 :=
  (jnpPad_ok x w mode c endv odd out h).1

theorem pad_shape_spec_witness :
    ∃ out, jnpPad (ofList [1, 2, 3]) [(2, 1)] PadMode.reflect 0 [] false = Except.ok out ∧
      out.shape.length = 1 ∧ out.shape.getD 0 0 = 6 := by
  obtain ⟨out, hE⟩ := isOk_exists
    (jnpPad (ofList [1, 2, 3]) [(2, 1)] PadMode.reflect 0 [] false) rfl
  have hmain := pad_shape_spec (ofList [1, 2, 3]) [(2, 1)] PadMode.reflect 0 [] false out hE
  refine ⟨out, hE, ?_, ?_⟩
  · rw [hmain.1]
    rfl
  · rw [hmain.2 0 (by decide)]
    rfl

/-- **C6.** Slicing a successful `pad` back to the original region
(`[w[i].before : w[i].before + a.shape[i]]` on every axis) recovers
`a` exactly: the padding never alters the interior elements. -/
theorem pad_slice_roundtrip (x : NDArr) (w : List (Nat × Nat)) (mode : PadMode) (c : Int)
    (endv : List (Int × Int)) (odd : Bool) (out : NDArr)
    (h : jnpPad x w mode c endv odd = Except.ok out) :
    ∀ idx, validIdx x.shape idx = true →
      (sliceRegion out w x.shape).val idx = x.val idx := by
  intro idx hv
  show out.val ((List.range x.shape.length).map
    (fun i => idxAt idx i + (w.getD i (0, 0)).1)) = x.val idx
  exact (jnpPad_ok x w mode c endv odd out h).2 idx hv

theorem pad_slice_roundtrip_witness :
    ∃ out, jnpPad (ofList [10, 20, 30, 40]) [(2, 2)] PadMode.symmetric 0 [] false
        = Except.ok out ∧
      (sliceRegion out [(2, 2)] (ofList [10, 20, 30, 40]).shape).val [1]
        = (ofList [10, 20, 30, 40]).val [1] := by
  obtain ⟨out, hE⟩ := isOk_exists
    (jnpPad (ofList [10, 20, 30, 40]) [(2, 2)] PadMode.symmetric 0 [] false) rfl
  exact ⟨out, hE,
    pad_slice_roundtrip (ofList [10, 20, 30, 40]) [(2, 2)] PadMode.symmetric 0 [] false
      out hE [1] (by decide)⟩

/-- **C10.** `fill_diagonal` fails whenever it is called with
`inplace = true` (the default) or with `wrap = true` — those guards run
before the array is examined — and a result is produced only when the
caller passes `inplace = false` and `wrap = false`; on success the
result is a fresh array with the input's shape (the input itself, a
value of the pure model, is never modified). -/
theorem fill_diagonal_spec (a val : NDArr) (wrap inplace : Bool) :
    ((inplace = true ∨ wrap = true) →
      (fillDiagonal a val wrap inplace).isOk = false) ∧
    ∀ r, fillDiagonal a val wrap inplace = Except.ok r →
      inplace = false ∧ wrap = false ∧ r.shape = a.shape := by
  constructor
  · intro hcase
    unfold fillDiagonal
    by_cases hin : inplace = true
    · rw [if_pos hin]
      rfl
    · rcases hcase with h | h
      · exact absurd h hin
      · rw [if_neg hin, if_pos h]
        rfl
  · intro r hr
    unfold fillDiagonal at hr
    by_cases hin : inplace = true
    · rw [if_pos hin] at hr
      exact absurd hr (by simp)
    · rw [if_neg hin] at hr
      by_cases hwr : wrap = true
      · rw [if_pos hwr] at hr
        exact absurd hr (by simp)
      · rw [if_neg hwr] at hr
        refine ⟨Bool.eq_false_iff.mpr hin, Bool.eq_false_iff.mpr hwr, ?_⟩
        by_cases h2 : a.shape.length < 2
        · rw [if_pos h2] at hr
          exact absurd hr (by simp)
        · rw [if_neg h2] at hr
          by_cases h3 : a.shape.length > 2 ∧
              ¬ ((a.shape.drop 1).all (fun m => decide (m = a.shape.headD 0))) = true
          · rw [if_pos h3] at hr
            exact absurd hr (by simp)
          · rw [if_neg h3] at hr
            have hx : setDiag a val (listMin a.shape) = r := by
              simpa using hr
            rw [← hx]
            rfl

theorem fill_diagonal_spec_witness :
    (fillDiagonal { shape := [2, 2], val := fun _ => (0 : Int) }
        { shape := [], val := fun _ => (7 : Int) } false true).isOk = false ∧
    ((false : Bool) = false ∧ (false : Bool) = false ∧
      (setDiag { shape := [2, 2], val := fun _ => (0 : Int) }
        { shape := [], val := fun _ => (7 : Int) }
        (listMin [2, 2])).shape = [2, 2]) :=
  ⟨(fill_diagonal_spec { shape := [2, 2], val := fun _ => (0 : Int) }
      { shape := [], val := fun _ => (7 : Int) } false true).1 (Or.inl rfl),
   (fill_diagonal_spec { shape := [2, 2], val := fun _ => (0 : Int) }
      { shape := [], val := fun _ => (7 : Int) } false false).2
     (setDiag { shape := [2, 2], val := fun _ => (0 : Int) }
       { shape := [], val := fun _ => (7 : Int) } (listMin [2, 2])) rfl⟩

end LaxNumpy
